import Mathlib

/-!
Verification of the category-learning and file-placement core of `pdf_sorter.py`.

The Python source is shallowly embedded: strings are Lean `String`s operated on
through their underlying `List Char` (Python's `str.lower`, `in`, `re` patterns
on the ASCII alphabet that the program's data uses), the knowledge store is an
insertion-ordered association list mirroring a Python `dict`, and the
filesystem is a finite tree of named entries.  Each embedded definition carries
a comment naming the Python function it is translated from.
-/

set_option maxRecDepth 10000

namespace PdfSorter

/-- Python `str.lower()` restricted to ASCII, matching the ASCII data the
program manipulates (`Char.toLower` maps exactly the range A-Z). -/
def lowerChars (l : List Char) : List Char :=
  l.map Char.toLower

/-- Python's substring test `needle in hay` on character lists. -/
def occursIn (needle hay : List Char) : Bool :=
  match hay with
  | [] => needle.isEmpty
  | _ :: t => needle.isPrefixOf hay || occursIn needle t

/-- `re.split(r'[_\s-]', name)`: split at every separator character, keeping
empty segments, as Python's `re.split` does. -/
def splitSeps (sep : Char → Bool) (l : List Char) : List (List Char) :=
  match l with
  | [] => [[]]
  | c :: t =>
    let r := splitSeps sep t
    if sep c then [] :: r
    else
      match r with
      | [] => [[c]]
      | h :: t2 => (c :: h) :: t2

/-- The separator class `[_\s-]` of `_extract_document_type` (ASCII `\s`). -/
def isSepChar (c : Char) : Bool :=
  c = '_' || c = ' ' || c = '\t' || c = '\n' || c = '\r' ||
  c = Char.ofNat 11 || c = Char.ofNat 12 || c = '-'

/-- `re.match(r'^\d{8}$', p)`: the segment is exactly eight ASCII digits. -/
def isEightDigits (l : List Char) : Bool :=
  l.length = 8 && l.all Char.isDigit

/-- The index of the last character satisfying `p`, if any. -/
def findLastIdx (p : Char → Bool) : List Char → Option Nat
  | [] => none
  | c :: t =>
    match findLastIdx p t with
    | some i => some (i + 1)
    | none => if p c then some 0 else none

/-- `pathlib.PurePath.stem` on a bare file name: strip the final suffix; the
suffix is `name[i:]` for the last dot index `i` only when `0 < i < len - 1`. -/
def pyStem (l : List Char) : List Char :=
  match findLastIdx (fun c => c = '.') l with
  | some i => if 0 < i && i < l.length - 1 then l.take i else l
  | none => l

/-- `pathlib.PurePath.suffix` on a bare file name (the part `pyStem` drops). -/
def pySuffix (l : List Char) : List Char :=
  match findLastIdx (fun c => c = '.') l with
  | some i => if 0 < i && i < l.length - 1 then l.drop i else []
  | none => []

/-- `os.path.splitext` on a bare file name: split at the last dot provided
some earlier character of the name is not a dot (leading dots never start an
extension). -/
def osSplitExt (l : List Char) : List Char × List Char :=
  match findLastIdx (fun c => c = '.') l with
  | some i =>
    if (l.take i).any (fun c => c ≠ '.') then (l.take i, l.drop i)
    else (l, [])
  | none => (l, [])

/-! ## Knowledge store (`learned_categories`) -/

/-- One value of the `learned_categories` dict: the `document_types` list and
the `created_at` timestamp string. -/
structure CatData where
  document_types : List String
  created_at : String
  deriving DecidableEq

/-- The knowledge store: a Python dict `category name → CatData`, embedded as
an insertion-ordered association list. -/
abbrev Store := List (String × CatData)

/-- Python `str.lower()` on `String`. -/
def lowerS (s : String) : String :=
  ⟨lowerChars s.data⟩

/-- The symmetric partial match of `_suggest_category`:
`known_type.lower() in doc_type_lower or doc_type_lower in known_type.lower()`. -/
def tokenMatches (doc known : String) : Bool :=
  occursIn (lowerChars known.data) (lowerChars doc.data) ||
  occursIn (lowerChars doc.data) (lowerChars known.data)

/-- `_suggest_category`: scan categories in insertion order, inside each the
known document types in list order, and return the first category with a
symmetric partial match; `None` when nothing matches (the leading
`if not self.learned_categories` guard is the empty-store case). -/
def suggestCategory (store : Store) (docType : String) : Option String :=
  match store with
  | [] => none
  | (cat, data) :: rest =>
    if data.document_types.any (fun kt => tokenMatches docType kt) then some cat
    else suggestCategory rest docType

/-- `_extract_document_type`: drop the extension, split the stem on
`[_\s-]`, drop segments that are exactly eight digits, and rejoin the
remaining segments with single spaces. -/
def extractDocumentType (filename : String) : String :=
  let name := pyStem filename.data
  let parts := splitSeps isSepChar name
  let parts := parts.filter (fun p => !isEightDigits p)
  ⟨List.intercalate [' '] parts⟩

/-- Does `20\d{2}` match at the head of `l`? -/
def yearHere (l : List Char) : Bool :=
  match l with
  | '2' :: '0' :: c :: d :: _ => c.isDigit && d.isDigit
  | _ => false

/-- `re.search(r'20\d{2}', filename)`: leftmost match, scanning left to
right. -/
def searchYear (l : List Char) : Option (List Char) :=
  match l with
  | [] => none
  | _ :: t => if yearHere l then some (l.take 4) else searchYear t

/-- `_extract_year_from_filename`: the first `20\d{2}` substring, else
`None`. -/
def extractYear (filename : String) : Option String :=
  (searchYear filename.data).map (fun y => ⟨y⟩)

/-! ## `_format_filename` -/

/-- The `(.+)$` tail of the date pattern, with Python semantics: `.` does not
match a newline and `$` also matches just before a single trailing newline, so
the group is the rest with one trailing newline dropped, and the pattern
matches only when that group is nonempty and newline-free. -/
def restGroup (rest : List Char) : Option (List Char) :=
  let core := if rest.getLast? = some '\n' then rest.dropLast else rest
  if core.isEmpty || core.any (fun c => c = '\n') then none else some core

/-- `re.match(r'^(\d{4})(\d{2})(\d{2})(_|-)(.+)$', stem)`: on success, the
groups `(yyyy, mm, dd, rest)` (the separator is replaced by a space in the
output and need not be returned). -/
def matchDatePattern (stem : List Char) : Option (List Char × List Char × List Char × List Char) :=
  match stem with
  | y1 :: y2 :: y3 :: y4 :: m1 :: m2 :: d1 :: d2 :: sep :: rest =>
    if ([y1, y2, y3, y4, m1, m2, d1, d2].all Char.isDigit) && (sep = '_' || sep = '-') then
      match restGroup rest with
      | some core => some ([y1, y2, y3, y4], [m1, m2], [d1, d2], core)
      | none => none
    else none
  | _ => none

/-- `_format_filename`: reformat a leading `yyyymmdd` date in the stem to
`yyyy-mm-dd ` followed by the rest and the original extension; otherwise
return the file name unchanged. -/
def formatFilename (filename : String) : String :=
  let stem := pyStem filename.data
  let ext := pySuffix filename.data
  match matchDatePattern stem with
  | some (y, m, d, rest) =>
    ⟨y ++ ['-'] ++ m ++ ['-'] ++ d ++ [' '] ++ rest ++ ext⟩
  | none => filename

/-! ## Knowledge-file persistence (`_load_learned_categories` /
`_save_learned_categories` / `_update_category_knowledge`) -/

/-- The byte content of the knowledge file, abstracted by how `open` +
`json.load` react to it: a well-formed UTF-8 JSON store, UTF-8 text that is
not valid JSON, or bytes that are not valid UTF-8. -/
inductive FileContent where
  | jsonOf (s : Store) : FileContent
  | badJson : FileContent
  | badUtf8 : FileContent
  deriving DecidableEq

/-- The state of the knowledge file on disk: absent, present but unreadable
(`open` raises `PermissionError`), or present with some content. -/
inductive FileState where
  | missing : FileState
  | denied : FileState
  | present (c : FileContent) : FileState
  deriving DecidableEq

/-- The Python exceptions that reading the knowledge file can raise. -/
inductive PyErr where
  | permissionError : PyErr
  | unicodeDecodeError : PyErr
  deriving DecidableEq

/-- `_load_learned_categories`: if the file exists, `open` it and `json.load`
it, catching only `json.JSONDecodeError` (→ `{}`); a missing file yields `{}`.
`PermissionError` from `open` and `UnicodeDecodeError` from decoding the bytes
are not caught and propagate, which the `Except.error` results record. -/
def loadLearnedCategories (f : FileState) : Except PyErr Store :=
  match f with
  | .missing => .ok []
  | .denied => .error .permissionError
  | .present .badUtf8 => .error .unicodeDecodeError
  | .present .badJson => .ok []
  | .present (.jsonOf s) => .ok s

/-- `_save_learned_categories`: rewrite the whole file with the in-memory
store as JSON. -/
def saveLearnedCategories (s : Store) : FileState :=
  .present (.jsonOf s)

/-- The token list currently recorded for `cat` (empty when absent). -/
def tokensOf (store : Store) (cat : String) : List String :=
  match store.find? (fun p => p.1 = cat) with
  | some p => p.2.document_types
  | none => []

/-- `doc_type.lower() in [t.lower() for t in ...]`: case-insensitive
membership, by equality of lowered strings. -/
def knownCI (tokens : List String) (tok : String) : Bool :=
  (tokens.map lowerS).contains (lowerS tok)

/-- Replace the `document_types` of `cat` (first occurrence) by `ts`. -/
def setTokens (store : Store) (cat : String) (ts : List String) : Store :=
  match store with
  | [] => []
  | (c, d) :: rest =>
    if c = cat then (c, ⟨ts, d.created_at⟩) :: rest
    else (c, d) :: setTokens rest cat ts

/-- `_update_category_knowledge`: create the category if absent (with
`created_at = now`), then append the token unless it is already known
case-insensitively; the returned flag says whether a save was triggered. -/
def updateCategoryKnowledge (store : Store) (cat tok now : String) : Store × Bool :=
  let store1 := if store.any (fun p => p.1 = cat) then store else store ++ [(cat, ⟨[], now⟩)]
  if knownCI (tokensOf store1 cat) tok then (store1, false)
  else (setTokens store1 cat (tokensOf store1 cat ++ [tok]), true)

/-- In-memory store plus the knowledge file, threaded together so that the
immediate-persistence contract can be stated. -/
structure PersistState where
  mem : Store
  file : FileState
  deriving DecidableEq

/-- `_update_category_knowledge` together with its `_save_learned_categories`
call: the file is rewritten exactly when a token was appended. -/
def recordPersist (ps : PersistState) (cat tok now : String) : PersistState :=
  let r := updateCategoryKnowledge ps.mem cat tok now
  ⟨r.1, if r.2 then saveLearnedCategories r.1 else ps.file⟩

/-! ## Filesystem model

A directory is a finite ordered list of named entries.  Paths are lists of
component names below the source root.  All lookups resolve the first entry
carrying the name, which on a real filesystem (sibling names unique) is the
only one. -/

/-- A filesystem entry: a file, or a directory with its children in listing
order. -/
inductive Entry where
  | file (name : String) : Entry
  | dir (name : String) (children : List Entry) : Entry

mutual

/-- Decidable equality of entries (the nested `List` rules out deriving). -/
def entryDecEq : (a b : Entry) → Decidable (a = b)
  | .file n, .file m =>
    if h : n = m then .isTrue (by rw [h])
    else .isFalse (by intro hc; injection hc; exact h (by assumption))
  | .file _, .dir _ _ => .isFalse (by intro hc; exact Entry.noConfusion hc)
  | .dir _ _, .file _ => .isFalse (by intro hc; exact Entry.noConfusion hc)
  | .dir n ch, .dir m ch2 =>
    if h : n = m then
      match entryListDecEq ch ch2 with
      | .isTrue h2 => .isTrue (by rw [h, h2])
      | .isFalse h2 => .isFalse (by intro hc; injection hc; exact h2 (by assumption))
    else .isFalse (by intro hc; injection hc; exact h (by assumption))

/-- Decidable equality of entry lists. -/
def entryListDecEq : (a b : List Entry) → Decidable (a = b)
  | [], [] => .isTrue rfl
  | [], _ :: _ => .isFalse (by intro hc; exact List.noConfusion hc)
  | _ :: _, [] => .isFalse (by intro hc; exact List.noConfusion hc)
  | a :: t, b :: t2 =>
    match entryDecEq a b with
    | .isTrue h =>
      match entryListDecEq t t2 with
      | .isTrue h2 => .isTrue (by rw [h, h2])
      | .isFalse h2 => .isFalse (by intro hc; injection hc; exact h2 (by assumption))
    | .isFalse h => .isFalse (by intro hc; injection hc; exact h (by assumption))

end

instance : DecidableEq Entry := entryDecEq

/-- The name of an entry. -/
def entryName : Entry → String
  | .file n => n
  | .dir n _ => n

/-- Look up the entry with the given name in a listing. -/
def findEntry (es : List Entry) (n : String) : Option Entry :=
  es.find? (fun e => entryName e = n)

/-- The entry at a nonempty path, if the path resolves. -/
def getPath (es : List Entry) : List String → Option Entry
  | [] => none
  | n :: rest =>
    match findEntry es n with
    | none => none
    | some e =>
      match rest with
      | [] => some e
      | _ :: _ =>
        match e with
        | .dir _ ch => getPath ch rest
        | .file _ => none

/-- `Path.exists()` along a path below the root. -/
def existsPath (es : List Entry) (p : List String) : Bool :=
  match p with
  | [] => true
  | _ :: _ => (getPath es p).isSome

/-- `Path.is_dir()` along a path below the root. -/
def isDirPath (es : List Entry) : List String → Bool
  | [] => true
  | n :: rest =>
    match findEntry es n with
    | some (.dir _ ch) => isDirPath ch rest
    | _ => false

/-- Apply `g` to the children of the first directory named `n` of a listing;
no change when the first entry named `n` is a file or absent. -/
def mapDirList : List Entry → String → (List Entry → List Entry) → List Entry
  | [], _, _ => []
  | e :: t, n, g =>
    if entryName e = n then
      match e with
      | .dir m ch => .dir m (g ch) :: t
      | .file _ => e :: t
    else e :: mapDirList t n g

/-- Apply `f` to the child list of the directory at `p` (the root listing for
`p = []`); no change when the path does not resolve to a directory. -/
def mapDirAt (es : List Entry) : List String → (List Entry → List Entry) → List Entry
  | [], f => f es
  | n :: rest, f => mapDirList es n (fun ch => mapDirAt ch rest f)

/-- Remove the first entry with the given name from a listing. -/
def removeFirstNamed : List Entry → String → List Entry
  | [], _ => []
  | e :: t, n => if entryName e = n then t else e :: removeFirstNamed t n

/-- Replace the first entry with the given name in a listing. -/
def replaceFirstNamed : List Entry → String → Entry → List Entry
  | [], _, _ => []
  | e :: t, n, e2 => if entryName e = n then e2 :: t else e :: replaceFirstNamed t n e2

/-- The last component of a path (`""` for the empty path, unused). -/
def lastName (p : List String) : String :=
  (p.getLast?).getD ""

/-- Remove the entry at a (nonempty) path. -/
def removePath (es : List Entry) (p : List String) : List Entry :=
  mapDirAt es p.dropLast (fun ch => removeFirstNamed ch (lastName p))

/-- Append a new entry to the directory listing at `dirP` (creation order =
listing order). -/
def insertAtDir (es : List Entry) (dirP : List String) (e : Entry) : List Entry :=
  mapDirAt es dirP (fun ch => ch ++ [e])

/-- Replace the entry at a (nonempty) path. -/
def replaceAt (es : List Entry) (p : List String) (e : Entry) : List Entry :=
  mapDirAt es p.dropLast (fun ch => replaceFirstNamed ch (lastName p) e)

/-- Rename an entry, keeping its contents. -/
def renameEntry (e : Entry) (n : String) : Entry :=
  match e with
  | .file _ => .file n
  | .dir _ ch => .dir n ch

/-- `shutil.move(src, dst)` on the same filesystem; `none` models a raised
exception.  If `dst` is an existing directory the source moves *into* it
under its own base name, raising if that occupied; otherwise `os.rename`
applies: it silently replaces an existing file by a file, raises when a
directory would replace a file, raises when the destination's parent is not a
directory, and raises when a directory would move into its own subtree. -/
def shutilMove (fs : List Entry) (src dst : List String) : Option (List Entry) :=
  match getPath fs src with
  | none => none
  | some e =>
    if isDirPath fs dst then
      let real := dst ++ [entryName e]
      if src = real ∨ src.isPrefixOf real then none
      else if existsPath fs real then none
      else some (insertAtDir (removePath fs src) dst e)
    else if existsPath fs dst then
      if src = dst then some fs
      else
        match e with
        | .file _ => some (replaceAt (removePath fs src) dst (.file (lastName dst)))
        | .dir _ _ => none
    else
      if isDirPath fs dst.dropLast then
        if src.isPrefixOf dst then none
        else some (insertAtDir (removePath fs src) dst.dropLast (renameEntry e (lastName dst)))
      else none

/-- The file names of a listing, in listing order. -/
def fileNamesOf (es : List Entry) : List String :=
  es.filterMap (fun e => match e with | .file n => some n | .dir _ _ => none)

/-- The children of the first directory named `n`, if the first entry
carrying `n` is a directory. -/
def dirView (es : List Entry) (n : String) : Option (List Entry) :=
  match findEntry es n with
  | some (.dir _ ch) => some ch
  | _ => none

/-- The listing at a directory path (the root listing for `[]`). -/
def listingAt (es : List Entry) : List String → Option (List Entry)
  | [] => some es
  | n :: rest =>
    match dirView es n with
    | some ch => listingAt ch rest
    | none => none

/-- Sibling names are unique in the listing at `p` (vacuously true when the
path does not resolve) — the well-formedness a real filesystem guarantees at
every directory. -/
def nodupListing (fs : List Entry) (p : List String) : Bool :=
  match listingAt fs p with
  | some L => decide (L.map entryName).Nodup
  | none => true

/-- Does the path resolve to a file? -/
def isFilePath (es : List Entry) (p : List String) : Bool :=
  match getPath es p with
  | some (.file _) => true
  | _ => false

/-! ## Discovery (`sort_pdfs`, lines 461-476) -/

/-- Is the name exactly four digits (`name.isdigit() and len(name) == 4`)? -/
def isYearDirName (n : String) : Bool :=
  n.data.length = 4 && n.data.all Char.isDigit

/-- `filename.lower().endswith(('.pdf', '.jpg', '.png', '.jpeg'))`. -/
def hasDocExt (n : String) : Bool :=
  (( [".pdf", ".jpg", ".png", ".jpeg"] : List String).any
    (fun ext => ext.data.isSuffixOf (lowerChars n.data)))

/-- `os.walk` below an already-visited directory: for each subdirectory in
listing order, its `(path, file names)` pair followed, depth first, by its
own subdirectories' pairs. -/
def walkChildren (path : List String) : List Entry → List (List String × List String)
  | [] => []
  | .file _ :: t => walkChildren path t
  | .dir n ch :: t =>
    ((path ++ [n], fileNamesOf ch) :: walkChildren (path ++ [n]) ch) ++ walkChildren path t

/-- `os.walk(root)`: the root's pair first, then the recursive traversal. -/
def walkDir (rootPath : List String) (es : List Entry) : List (List String × List String) :=
  (rootPath, fileNamesOf es) :: walkChildren rootPath es

/-- The discovery loop of `sort_pdfs`: walk the tree, skip the files of any
directory whose own name is exactly four digits (without pruning its
subdirectories — `os.walk` still descends), and keep files with a document
extension. -/
def discoverFiles (rootName : String) (fs : List Entry) : List (List String) :=
  (walkDir [rootName] fs).foldr
    (fun pr acc =>
      (if isYearDirName (lastName pr.1) then []
       else (pr.2.filter hasDocExt).map (fun f => pr.1 ++ [f])) ++ acc) []

/-- Spec version of discovery for the amended claim, written from its words:
walk the whole tree and select exactly the files with a document extension
whose *immediate parent* directory is not four-digit-named. -/
def specCollectChildren (path : List String) : List Entry → List (List String)
  | [] => []
  | .file _ :: t => specCollectChildren path t
  | .dir n ch :: t =>
    ((if isYearDirName n then []
      else ((fileNamesOf ch).filter hasDocExt).map (fun f => path ++ [n, f]))
      ++ specCollectChildren (path ++ [n]) ch) ++ specCollectChildren path t

/-- Spec discovery: files of the root (unless the root itself is
four-digit-named), then the recursive selection. -/
def specDiscover (rootName : String) (fs : List Entry) : List (List String) :=
  (if isYearDirName rootName then []
   else ((fileNamesOf fs).filter hasDocExt).map (fun f => [rootName, f]))
    ++ specCollectChildren [rootName] fs

/-! ## File placement (`sort_pdfs`, lines 488-618) -/

/-- ASCII whitespace, the `str.split()` / `str.strip()` separator class. -/
def isPyWs (c : Char) : Bool :=
  c = ' ' || c = '\t' || c = '\n' || c = '\r' || c = Char.ofNat 11 || c = Char.ofNat 12

/-- Accumulator pass of Python `str.split()`: whitespace-separated words,
empties dropped. -/
def wordsAux (acc : List Char) : List Char → List (List Char)
  | [] => if acc.isEmpty then [] else [acc.reverse]
  | c :: t =>
    if isPyWs c then
      if acc.isEmpty then wordsAux [] t else acc.reverse :: wordsAux [] t
    else wordsAux (c :: acc) t

/-- Python `str.split()` with no argument. -/
def pyWords (s : String) : List String :=
  (wordsAux [] s.data).map (fun l => ⟨l⟩)

/-- The fixed menu `_ask_for_category` offers. -/
def categoriesMenu : List String :=
  ["01 Antrag", "02 Bescheid", "03 Vertrag", "04 Rechnung", "05 Information"]

/-- The operator's scripted answers plus the session clock.  The code's
retry-until-valid input loops are modelled by interpreting the numeric
answers modulo the number of alternatives, so every answer is a valid one. -/
structure SortConfig where
  pickWordIdx : String → Option Nat
  chooseCat : String → String → Nat
  overwrite : List String → Bool
  now : String

/-- `_ask_for_category`: optionally narrow a multi-word token to one word
chosen by the operator, present the five fixed categories, and learn the
resulting `(category, token)` pair via `_update_category_knowledge`. -/
def askForCategory (cfg : SortConfig) (store : Store) (filename docType : String) :
    String × Store :=
  let ws := pyWords docType
  let docType2 :=
    if 1 < ws.length then
      match cfg.pickWordIdx docType with
      | some i => ws.getD (i % ws.length) docType
      | none => docType
    else docType
  let cat := categoriesMenu.getD (cfg.chooseCat filename docType % 5) "01 Antrag"
  (cat, (updateCategoryKnowledge store cat docType2 cfg.now).1)

/-- The classification step of the per-file loop: `_suggest_category`, with
`_ask_for_category` as the escalation path when it returns `None`. -/
def resolveCategory (cfg : SortConfig) (store : Store) (filename : String) :
    String × Store :=
  let docType := extractDocumentType filename
  match suggestCategory store docType with
  | some c => (c, store)
  | none => askForCategory cfg store filename docType

/-- `category_dir.mkdir(exist_ok=True)` with only `PermissionError` caught:
an existing directory is fine, a missing one is created at the end of the
root listing, and an existing *file* of that name raises `FileExistsError`,
which nothing catches (`none`). -/
def mkdirCategory (fs : List Entry) (cat : String) : Option (List Entry) :=
  match findEntry fs cat with
  | some (.dir _ _) => some fs
  | some (.file _) => none
  | none => some (fs ++ [.dir cat []])

/-- The session report structure: category → year key (`"no_year"` for
yearless files) → relocated file names, all in insertion order (the nested
`defaultdict`). -/
abbrev SortResults := List (String × List (String × List String))

/-- Append a name to one year group of one category's report. -/
def addToGroup (groups : List (String × List String)) (key name : String) :
    List (String × List String) :=
  match groups with
  | [] => [(key, [name])]
  | (k, fl) :: t =>
    if k = key then (k, fl ++ [name]) :: t else (k, fl) :: addToGroup t key name

/-- `results[category][year if year else "no_year"].append(name)`. -/
def addResult (res : SortResults) (cat key name : String) : SortResults :=
  match res with
  | [] => [(cat, [(key, [name])])]
  | (c, g) :: t =>
    if c = cat then (c, addToGroup g key name) :: t else (c, g) :: addResult t cat key name

/-- The per-category flattening of the final report: `no_year` entries keep
their bare names, year groups contribute `"year/name"`. -/
def formatGroups : List (String × List String) → List String
  | [] => []
  | (y, fl) :: t =>
    (if y = "no_year" then fl else fl.map (fun f => y ++ "/" ++ f)) ++ formatGroups t

/-- Lines 608-616: the returned report, category → flattened name list. -/
def formatResults (res : SortResults) : List (String × List String) :=
  res.map (fun p => (p.1, formatGroups p.2))

/-- The mutable state threaded through the per-file loop. -/
structure SortState where
  fs : List Entry
  store : Store
  results : SortResults
  deriving DecidableEq

/-- One iteration of the per-file loop of `sort_pdfs` for a non-cloud source
(readiness checks skipped, a single post-move verification):
classify, create the category folder (`error` = the uncaught
`FileExistsError` when a file occupies the category name), create the year
subfolder when a year was extracted (falling back to the category folder if
that raises), reformat the filename, ask before overwriting an existing
target (declining skips the file), move, verify, and record the move in the
report. -/
def processFile (cfg : SortConfig) (st : SortState) (filePath : List String) :
    Except Unit SortState :=
  let name := lastName filePath
  let r := resolveCategory cfg st.store name
  let category := r.1
  let store1 := r.2
  match mkdirCategory st.fs category with
  | none => .error ()
  | some fs1 =>
    let year := extractYear name
    let targetDir :=
      match year with
      | some y =>
        if existsPath fs1 [category, y] && !(isDirPath fs1 [category, y]) then [category]
        else [category, y]
      | none => [category]
    let fs2 :=
      match year with
      | some y =>
        if existsPath fs1 [category, y] then fs1
        else insertAtDir fs1 [category] (.dir y [])
      | none => fs1
    let formatted := formatFilename name
    let target := targetDir ++ [formatted]
    if existsPath fs2 target && !(cfg.overwrite target) then
      .ok ⟨fs2, store1, st.results⟩
    else
      match shutilMove fs2 filePath target with
      | none => .ok ⟨fs2, store1, st.results⟩
      | some fs3 =>
        if existsPath fs3 target && !(existsPath fs3 filePath) then
          .ok ⟨fs3, store1,
            addResult st.results category
              (match year with | some y => y | none => "no_year") formatted⟩
        else .ok ⟨fs3, store1, st.results⟩

/-- The target path `processFile` computes, as a function of the incoming
state (the folder-creation steps do not affect it when it already exists). -/
def plannedTarget (cfg : SortConfig) (st : SortState) (filePath : List String) :
    List String :=
  let name := lastName filePath
  let category := (resolveCategory cfg st.store name).1
  let year := extractYear name
  let targetDir :=
    match year with
    | some y =>
      if existsPath st.fs [category, y] && !(isDirPath st.fs [category, y]) then [category]
      else [category, y]
    | none => [category]
  targetDir ++ [formatFilename name]

/-- The whole `sort_pdfs` run for a non-cloud source: discover on the initial
tree, fold the per-file step, return the formatted report. -/
def sortPdfs (cfg : SortConfig) (rootName : String) (fs0 : List Entry) (store0 : Store) :
    Except Unit (SortState × List (String × List String)) :=
  let files := (discoverFiles rootName fs0).map (fun p => p.drop 1)
  (files.foldlM (processFile cfg) ⟨fs0, store0, []⟩).map
    (fun st => (st, formatResults st.results))

/-- A deterministic scripted operator for concrete runs. -/
def trivialConfig : SortConfig :=
  ⟨fun _ => none, fun _ _ => 0, fun _ => false, "2024-01-01T00:00:00"⟩

/-! ## Folder reconciliation (`_sync_folder_structure`) -/

/-- The `canonical_folders` table, in its dict's insertion order. -/
def canonicalFolders : List (String × String) :=
  [("antrag", "01 Antrag"), ("bescheid", "02 Bescheid"), ("vertrag", "03 Vertrag"),
   ("rechnung", "04 Rechnung"), ("information", "05 Information")]

/-- Python `str.strip()` (ASCII whitespace). -/
def pyStrip (l : List Char) : List Char :=
  ((l.dropWhile isPyWs).reverse.dropWhile isPyWs).reverse

/-- The folder-name normalisation of `_sync_folder_structure`: lower-case,
underscores to spaces, strip, drop a leading digit run plus following
spaces/underscores (`re.sub(r'^[0-9]+[\s_]*', '', ·)`), then the first
whitespace word (or the whole remainder if there is none). -/
def normalizeBase (name : String) : String :=
  let l := lowerChars name.data
  let l := l.map (fun c => if c = '_' then ' ' else c)
  let l := pyStrip l
  let l :=
    match l.head? with
    | some c =>
      if c.isDigit then (l.dropWhile Char.isDigit).dropWhile (fun c => isPyWs c || c = '_')
      else l
    | none => l
  match (wordsAux [] l).head? with
  | some w => ⟨w⟩
  | none => ⟨l⟩

/-- The canonical base a folder name matches, if any. -/
def baseOf (folderName : String) : Option String :=
  let b := normalizeBase folderName
  if canonicalFolders.any (fun p => p.1 = b) then some b else none

/-- The initial scan: `(base, folder name)` for every directory of the root
listing whose normalised name is a canonical base, in listing order. -/
def computeVariants (fs : List Entry) : List (String × String) :=
  fs.filterMap (fun e =>
    match e with
    | .dir n _ =>
      match baseOf n with
      | some b => some (b, n)
      | none => none
    | .file _ => none)

/-- The variant folder names recorded for one base, in scan order. -/
def variantsFor (vs : List (String × String)) (b : String) : List String :=
  vs.filterMap (fun p => if p.1 = b then some p.2 else none)

/-- A filesystem operation actually performed (log entry for the
idempotence statement). -/
inductive FsOp where
  | mkdirOp (name : String) : FsOp
  | moveOp (src dst : List String) : FsOp
  | rmdirOp (name : String) : FsOp
  deriving DecidableEq

/-- The collision-avoiding rename: try `stem_alt1 .. stem_alt99` (via
`os.path.splitext`), keeping the original name when all are taken. -/
def altName (fs : List Entry) (targetName itemName : String) : String :=
  let pr := osSplitExt itemName.data
  match (List.range 99).find?
      (fun i => !(existsPath fs
        [targetName, (⟨pr.1⟩ : String) ++ "_alt" ++ toString (i + 1) ++ (⟨pr.2⟩ : String)])) with
  | some i => (⟨pr.1⟩ : String) ++ "_alt" ++ toString (i + 1) ++ (⟨pr.2⟩ : String)
  | none => itemName

/-- Moving one item of a variant folder into the target folder: pick the
destination name (collision-avoiding when the plain name is taken), then
`shutil.move`; a raised exception is printed and leaves everything in
place. -/
def moveItem (fs : List Entry) (folderName targetName itemName : String) :
    List Entry × List FsOp :=
  match getPath fs [folderName, itemName] with
  | none => (fs, [])
  | some _ =>
    let destName :=
      if existsPath fs [targetName, itemName] then altName fs targetName itemName
      else itemName
    match shutilMove fs [folderName, itemName] [targetName, destName] with
    | some fs' => (fs', [.moveOp [folderName, itemName] [targetName, destName]])
    | none => (fs, [])

/-- Merging one variant folder: move each item of the snapshot of its
listing, then `rmdir` the folder, which succeeds only when it ended up
empty. -/
def mergeFolder (fs : List Entry) (folderName targetName : String) :
    List Entry × List FsOp :=
  match findEntry fs folderName with
  | some (.dir _ children) =>
    let names := children.map entryName
    let r := names.foldl
      (fun acc n =>
        let m := moveItem acc.1 folderName targetName n
        (m.1, acc.2 ++ m.2)) (fs, ([] : List FsOp))
    match findEntry r.1 folderName with
    | some (.dir _ []) => (removePath r.1 [folderName], r.2 ++ [.rmdirOp folderName])
    | _ => r
  | _ => (fs, [])

/-- Processing one canonical base: create the target folder when absent, then
merge every recorded variant except the target itself. -/
def processBase (vs : List (String × String)) (acc : List Entry × List FsOp)
    (bt : String × String) : List Entry × List FsOp :=
  let r1 :=
    if existsPath acc.1 [bt.2] then acc
    else (acc.1 ++ [.dir bt.2 []], acc.2 ++ [.mkdirOp bt.2])
  (variantsFor vs bt.1).foldl
    (fun a fname =>
      if fname = bt.2 then a
      else
        let m := mergeFolder a.1 fname bt.2
        (m.1, a.2 ++ m.2)) r1

/-- `_sync_folder_structure`: nothing happens on an empty knowledge store;
otherwise scan the root listing once for variants and process the canonical
bases in table order.  The returned list logs the operations performed. -/
def syncFolderStructure (knowledgeNonempty : Bool) (fs : List Entry) :
    List Entry × List FsOp :=
  if !knowledgeNonempty then (fs, [])
  else canonicalFolders.foldl (processBase (computeVariants fs)) (fs, [])

/-- The five canonical target folder names, in table order. -/
def targetsL : List String := canonicalFolders.map (fun p => p.2)

/-- Well-formedness a real directory tree guarantees at the depths the
reconciler reads: sibling names unique at the root and inside every root
folder. -/
def wfFS2 (g : List Entry) : Bool :=
  decide ((g.map entryName)).Nodup &&
  g.all (fun e => match e with
    | .dir _ ch => decide ((ch.map entryName)).Nodup
    | .file _ => true)

/-- The `j+1`-th collision-avoiding alternative for item name `i`. -/
def altStr (i : String) (j : Nat) : String :=
  let pr := osSplitExt i.data
  (⟨pr.1⟩ : String) ++ "_alt" ++ toString (j + 1) ++ (⟨pr.2⟩ : String)

/-- All 99 alternative names for `i` are taken under `t`. -/
def allAltsTaken (g : List Entry) (t i : String) : Bool :=
  (List.range 99).all (fun j => existsPath g [t, altStr i j])

/-- Entry growth: same kind and name; a directory may only gain names. -/
def entrySim : Entry → Entry → Prop
  | .file s, .file s2 => s2 = s
  | .dir n ch, .dir n2 ch2 =>
      n2 = n ∧ ∀ y, (findEntry ch y).isSome = true → (findEntry ch2 y).isSome = true
  | _, _ => False

/-- Listing growth inside a target folder: every present name stays with its
kind, directory entries only gain content. -/
def growsC (ch ch2 : List Entry) : Prop :=
  ∀ x e, findEntry ch x = some e → ∃ e2, findEntry ch2 x = some e2 ∧ entrySim e e2

/-- State growth along a reconciler run: root files are untouched and the
canonical target folders only accumulate content. -/
def growsR (g g2 : List Entry) : Prop :=
  (∀ n s, findEntry g n = some (.file s) → findEntry g2 n = some (.file s)) ∧
  (∀ t, t ∈ targetsL → ∀ ch, dirView g t = some ch →
    ∃ ch2, dirView g2 t = some ch2 ∧ growsC ch ch2)

/-- A variant-folder item the mover cannot relocate: the target name is a
root file, or the plain destination name and all 99 alternatives are taken
and the occupied plain name cannot absorb the item. -/
def stuckItem (g : List Entry) (F t i : String) : Prop :=
  ∃ e, getPath g [F, i] = some e ∧
    ((∃ s, findEntry g t = some (.file s)) ∨
      (existsPath g [t, i] = true ∧ allAltsTaken g t i = true ∧
        ((isDirPath g [t, i] = true ∧ existsPath g [t, i, i] = true) ∨
         (isDirPath g [t, i] = false ∧ ∃ ch, e = Entry.dir i ch))))

/-- A variant folder stuck in place: nonempty and every item unmovable. -/
def stuckDir (g : List Entry) (F t : String) : Prop :=
  ∃ ch, findEntry g F = some (.dir F ch) ∧ ch ≠ [] ∧
    ∀ i, i ∈ ch.map entryName → stuckItem g F t i

/-- A tree with two mergeable variant folders, for the idempotence witness. -/
def syncDemoTree : List Entry :=
  [Entry.dir "Antrag_old" [Entry.file "a.pdf"],
   Entry.dir "rechnung " [Entry.file "r.pdf", Entry.dir "sub" [Entry.file "x"]],
   Entry.file "notes.txt"]

/-! ## Spec-side definitions used to state the claims -/

/-- A store with `"invoice"` known under `"04 Rechnung"` and an earlier
category whose tokens do not match the tested candidates. -/
def invoiceDemoStore : Store :=
  [("00 Sonstiges", ⟨["zzz"], "2024-01-01T00:00:00"⟩),
   ("04 Rechnung", ⟨["invoice"], "2024-01-01T00:00:00"⟩)]

/-- Spec predicate: `20\d{2}` matches at offset `i` of `l`. -/
def yearAtIdx (l : List Char) (i : Nat) : Bool :=
  yearHere (l.drop i)

/-- Spec version of `_extract_year_from_filename`, written from the spec's
words: the match at the least offset, if any offset matches. -/
def specExtractYear (fn : String) : Option String :=
  ((List.range fn.data.length).find? (fun i => yearAtIdx fn.data i)).map
    (fun i => ⟨(fn.data.drop i).take 4⟩)

/-- Spec predicate for the amended date-reformat claim: the stem is eight
digits, then `'_'` or `'-'`, then a nonempty newline-free remainder, followed
by at most one trailing newline (which the pattern drops). -/
def specLeadingDate (stem : List Char) : Prop :=
  ∃ (d8 core opt : List Char) (sep : Char),
    stem = d8 ++ sep :: core ++ opt ∧
    d8.length = 8 ∧ (∀ c ∈ d8, c.isDigit = true) ∧
    (sep = '_' ∨ sep = '-') ∧
    core ≠ [] ∧ (∀ c ∈ core, c ≠ '\n') ∧
    (opt = [] ∨ opt = ['\n'])

/-! ## Theorems -/

/-- Helper: the nested loop of `_suggest_category` is a first-match search
over the category list. -/
theorem suggestCategory_eq_find (store : Store) (tok : String) :
    suggestCategory store tok =
      (store.find? (fun p => p.2.document_types.any (fun kt => tokenMatches tok kt))).map
        Prod.fst := by
  induction store with
  | nil => rfl
  | cons hd tl ih =>
    obtain ⟨c, d⟩ := hd
    by_cases h : (fun p : String × CatData =>
        p.2.document_types.any (fun kt => tokenMatches tok kt)) (c, d) = true
    · rw [suggestCategory, if_pos h,
        @List.find?_cons_of_pos _ (fun p : String × CatData =>
          p.2.document_types.any (fun kt => tokenMatches tok kt)) (c, d) tl h]
      rfl
    · rw [suggestCategory, if_neg h,
        @List.find?_cons_of_neg _ (fun p : String × CatData =>
          p.2.document_types.any (fun kt => tokenMatches tok kt)) (c, d) tl h, ih]

/-- Helper: `re.search(r'20\d{2}', ·)` returns the match at the least
offset. -/
theorem searchYear_eq_spec (l : List Char) :
    searchYear l = ((List.range l.length).find? (fun i => yearAtIdx l i)).map
      (fun i => (l.drop i).take 4) := by
  induction l with
  | nil => rfl
  | cons c t ih =>
    rw [searchYear, List.length_cons, List.range_succ_eq_map]
    by_cases h : yearHere (c :: t)
    · have h0 : (fun i => yearAtIdx (c :: t) i) 0 = true := h
      rw [if_pos h, @List.find?_cons_of_pos _ (fun i => yearAtIdx (c :: t) i) 0 _ h0]
      rfl
    · have h0 : ¬ (fun i => yearAtIdx (c :: t) i) 0 = true := h
      rw [if_neg h, @List.find?_cons_of_neg _ (fun i => yearAtIdx (c :: t) i) 0 _ h0,
        List.find?_map, Option.map_map, ih]
      rfl

/-- C1: `_suggest_category` returns the first category, in the store's
insertion order, that has a known token matching the candidate by symmetric
case-insensitive substring containment, and `None` when no pair matches (in
particular on the empty store); with `"invoice"` known under `"04 Rechnung"`
and no earlier-matching category, `"Invoice"`, `"invoices"` and
`"the invoice"` all resolve to `"04 Rechnung"`. -/
theorem resolver_first_match_claim :
    (∀ (store : Store) (tok : String),
      suggestCategory store tok =
        (store.find? (fun p => p.2.document_types.any (fun kt => tokenMatches tok kt))).map
          Prod.fst) ∧
    suggestCategory invoiceDemoStore "Invoice" = some "04 Rechnung" ∧
    suggestCategory invoiceDemoStore "invoices" = some "04 Rechnung" ∧
    suggestCategory invoiceDemoStore "the invoice" = some "04 Rechnung" ∧
    suggestCategory [] "Invoice" = none :=
  ⟨suggestCategory_eq_find, by decide, by decide, by decide, by decide⟩

/-- C5: for `"20230401_Invoice_Smith.pdf"` the extracted token is
`"Invoice Smith"` and the extracted year is `"2023"`; in general
`_extract_document_type` is exactly the stem/split/drop-8-digit/rejoin
pipeline and `_extract_year_from_filename` returns the leftmost `20\d{2}`
match (`none` when absent). -/
theorem token_year_roundtrip_claim :
    extractDocumentType "20230401_Invoice_Smith.pdf" = "Invoice Smith" ∧
    extractYear "20230401_Invoice_Smith.pdf" = some "2023" ∧
    (∀ fn : String, extractDocumentType fn =
      ⟨List.intercalate [' ']
        ((splitSeps isSepChar (pyStem fn.data)).filter (fun p => !isEightDigits p))⟩) ∧
    (∀ fn : String, extractYear fn = specExtractYear fn) := by
  refine ⟨by decide, by decide, fun fn => rfl, fun fn => ?_⟩
  rw [extractYear, specExtractYear, searchYear_eq_spec, Option.map_map]
  rfl

/-- Helper: `(.+)$` succeeds on a newline-free nonempty core followed by at
most one trailing newline, and captures the core. -/
theorem restGroup_pos (core opt : List Char) (hne : core ≠ [])
    (hnl : ∀ c ∈ core, c ≠ '\n') (hopt : opt = [] ∨ opt = ['\n']) :
    restGroup (core ++ opt) = some core := by
  have hAny : core.any (fun c => c = '\n') = false := by
    rw [List.any_eq_false]
    intro c hc
    simpa using hnl c hc
  have hEmp : core.isEmpty = false := by
    simpa [List.isEmpty_iff] using hne
  rcases hopt with h | h
  · subst h
    have hl : ¬ core.getLast? = some '\n' := by
      intro hcon
      exact hnl _ (List.mem_of_mem_getLast? hcon) rfl
    simp only [restGroup, List.append_nil, if_neg hl]
    simp [hEmp, hAny]
  · subst h
    simp only [restGroup, List.getLast?_concat, List.dropLast_concat, if_pos rfl]
    simp [hEmp, hAny]

/-- Helper: on a stem of the amended shape, the date pattern matches and
returns the digit chunks and the core remainder. -/
theorem matchDatePattern_pos (d8 core opt : List Char) (sep : Char)
    (hlen : d8.length = 8) (hdig : ∀ c ∈ d8, c.isDigit = true)
    (hsep : sep = '_' ∨ sep = '-') (hne : core ≠ [])
    (hnl : ∀ c ∈ core, c ≠ '\n') (hopt : opt = [] ∨ opt = ['\n']) :
    matchDatePattern (d8 ++ sep :: core ++ opt) =
      some (d8.take 4, (d8.drop 4).take 2, d8.drop 6, core) := by
  obtain ⟨c1, c2, c3, c4, c5, c6, c7, c8, rfl⟩ :
      ∃ c1 c2 c3 c4 c5 c6 c7 c8, d8 = [c1, c2, c3, c4, c5, c6, c7, c8] := by
    rcases d8 with _|⟨c1,_|⟨c2,_|⟨c3,_|⟨c4,_|⟨c5,_|⟨c6,_|⟨c7,_|⟨c8,_|⟨c9,r⟩⟩⟩⟩⟩⟩⟩⟩⟩ <;>
      first
        | exact ⟨c1, c2, c3, c4, c5, c6, c7, c8, rfl⟩
        | simp at hlen
  have hd : ∀ c ∈ [c1, c2, c3, c4, c5, c6, c7, c8], c.isDigit = true := hdig
  have hcond : ([c1, c2, c3, c4, c5, c6, c7, c8].all Char.isDigit &&
      (decide (sep = '_') || decide (sep = '-'))) = true := by
    rw [Bool.and_eq_true, List.all_eq_true]
    refine ⟨hd, ?_⟩
    rcases hsep with h | h <;> simp [h]
  show matchDatePattern (c1 :: c2 :: c3 :: c4 :: c5 :: c6 :: c7 :: c8 :: sep :: (core ++ opt)) = _
  rw [matchDatePattern, if_pos hcond, restGroup_pos core opt hne hnl hopt]
  rfl

/-- Helper: inversion of `(.+)$`: a successful capture is nonempty,
newline-free, and the matched rest is the capture with at most one trailing
newline. -/
theorem restGroup_some (rest core : List Char) (h : restGroup rest = some core) :
    core ≠ [] ∧ (∀ c ∈ core, c ≠ '\n') ∧ (rest = core ++ [] ∨ rest = core ++ ['\n']) := by
  by_cases hl : rest.getLast? = some '\n'
  · simp only [restGroup, if_pos hl] at h
    by_cases hbad : rest.dropLast.isEmpty || rest.dropLast.any (fun c => c = '\n')
    · rw [if_pos hbad] at h
      exact absurd h (by simp)
    · rw [if_neg hbad] at h
      rw [Bool.or_eq_true, not_or] at hbad
      obtain ⟨hemp, hany⟩ := hbad
      obtain rfl : rest.dropLast = core := by simpa using h
      refine ⟨?_, ?_, Or.inr ?_⟩
      · simpa [List.isEmpty_iff] using hemp
      · intro c hc hcon
        rw [List.any_eq_true] at hany
        exact hany ⟨c, hc, by simp [hcon]⟩
      · exact (List.dropLast_append_getLast? _ hl).symm
  · simp only [restGroup, if_neg hl] at h
    by_cases hbad : rest.isEmpty || rest.any (fun c => c = '\n')
    · rw [if_pos hbad] at h
      exact absurd h (by simp)
    · rw [if_neg hbad] at h
      rw [Bool.or_eq_true, not_or] at hbad
      obtain ⟨hemp, hany⟩ := hbad
      obtain rfl : rest = core := by simpa using h
      refine ⟨?_, ?_, Or.inl (by simp)⟩
      · simpa [List.isEmpty_iff] using hemp
      · intro c hc hcon
        rw [List.any_eq_true] at hany
        exact hany ⟨c, hc, by simp [hcon]⟩

/-- Helper: inversion of the date pattern: any successful match exhibits the
amended decomposition of the stem. -/
theorem matchDatePattern_some_spec (stem : List Char)
    (r : List Char × List Char × List Char × List Char)
    (h : matchDatePattern stem = some r) : specLeadingDate stem := by
  rcases stem with _|⟨y1,_|⟨y2,_|⟨y3,_|⟨y4,_|⟨m1,_|⟨m2,_|⟨d1,_|⟨d2,_|⟨sep,rest⟩⟩⟩⟩⟩⟩⟩⟩⟩ <;>
    try (rw [matchDatePattern.eq_def] at h; simp at h)
  obtain ⟨⟨⟨hd1, hd2, hd3, hd4, hd5, hd6, hd7, hd8⟩, hsep⟩, hmatch⟩ := h
  cases hres : restGroup rest with
  | none => rw [hres] at hmatch; exact absurd hmatch (by simp)
  | some core =>
    obtain ⟨hne, hnl, hsplit⟩ := restGroup_some rest core hres
    refine ⟨[y1, y2, y3, y4, m1, m2, d1, d2], core,
      (if rest = core ++ [] then [] else ['\n']), sep, ?_, rfl, ?_, hsep, hne, hnl, ?_⟩
    · rcases hsplit with hs | hs
      · rw [if_pos hs]
        rw [List.append_nil] at hs
        simp [hs]
      · by_cases hz : rest = core ++ []
        · rw [if_pos hz]
          rw [List.append_nil] at hz
          simp [hz]
        · rw [if_neg hz]
          simp [hs]
    · intro c hc
      simp only [List.mem_cons, List.not_mem_nil, or_false] at hc
      rcases hc with rfl | rfl | rfl | rfl | rfl | rfl | rfl | rfl <;> assumption
    · by_cases hz : rest = core ++ []
      · exact Or.inl (if_pos hz)
      · exact Or.inr (if_neg hz)

/-- C6 counterexample: the claim predicts `"20230401_.pdf"`, whose stem is
eight digits followed by `'_'` and nothing else, becomes
`"2023-04-01 .pdf"`, and that `"20230401_a\nb.pdf"` becomes
`"2023-04-01 a\nb.pdf"`; the code leaves both unchanged because the `(.+)$`
tail of its pattern requires a nonempty newline-free remainder. -/
theorem date_reformat_counterexample :
    formatFilename "20230401_.pdf" = "20230401_.pdf" ∧
    "20230401_.pdf" ≠ "2023-04-01 .pdf" ∧
    formatFilename "20230401_a\nb.pdf" = "20230401_a\nb.pdf" ∧
    "20230401_a\nb.pdf" ≠ "2023-04-01 a\nb.pdf" :=
  ⟨by decide, by decide, by decide, by decide⟩

/-- C6 (amended): a filename whose stem is exactly eight digits, then `'_'`
or `'-'`, then a nonempty newline-free remainder (up to one trailing newline,
which is dropped), is reformatted to `"YYYY-MM-DD "` + remainder + extension;
every other filename is returned unchanged. -/
theorem date_reformat_amended_claim :
    (∀ (fn : String) (d8 core opt : List Char) (sep : Char),
      pyStem fn.data = d8 ++ sep :: core ++ opt →
      d8.length = 8 → (∀ c ∈ d8, c.isDigit = true) →
      (sep = '_' ∨ sep = '-') → core ≠ [] → (∀ c ∈ core, c ≠ '\n') →
      (opt = [] ∨ opt = ['\n']) →
      formatFilename fn = ⟨d8.take 4 ++ '-' :: (d8.drop 4).take 2 ++ '-' :: d8.drop 6
        ++ ' ' :: core ++ pySuffix fn.data⟩) ∧
    (∀ fn : String, ¬ specLeadingDate (pyStem fn.data) → formatFilename fn = fn) := by
  constructor
  · intro fn d8 core opt sep hstem hlen hdig hsep hne hnl hopt
    have hm := matchDatePattern_pos d8 core opt sep hlen hdig hsep hne hnl hopt
    rw [← hstem] at hm
    rw [formatFilename, hm]
    simp
  · intro fn hnspec
    cases hm : matchDatePattern (pyStem fn.data) with
    | none => rw [formatFilename, hm]
    | some rr => exact absurd (matchDatePattern_some_spec _ rr hm) hnspec

/-- C6 witness: the amended theorem applied to `"20230401_Invoice.pdf"`
(matching stem) and `"Invoice.pdf"` (non-matching stem). -/
theorem date_reformat_amended_witness :
    formatFilename "20230401_Invoice.pdf" = "2023-04-01 Invoice.pdf" ∧
    formatFilename "Invoice.pdf" = "Invoice.pdf" := by
  constructor
  · have h := date_reformat_amended_claim.1 "20230401_Invoice.pdf"
      ['2', '0', '2', '3', '0', '4', '0', '1'] ['I', 'n', 'v', 'o', 'i', 'c', 'e'] [] '_'
      (by decide) (by decide) (by decide) (Or.inl rfl) (by decide) (by decide) (Or.inl rfl)
    exact h.trans (by decide)
  · refine date_reformat_amended_claim.2 "Invoice.pdf" ?_
    rintro ⟨d8, core, opt, sep, hstem, hlen, -, -, hne, -, -⟩
    have h7 : (pyStem "Invoice.pdf".data).length = 7 := by decide
    rw [hstem] at h7
    have hc : core.length ≠ 0 := by simpa using hne
    simp [List.length_append, hlen] at h7
    omega

/-- C4 counterexample: the claim says no error while reading the knowledge
file propagates; but `_load_learned_categories` catches only
`json.JSONDecodeError`, so a `PermissionError` from `open` on an existing
unreadable file and a `UnicodeDecodeError` from non-UTF-8 bytes both
propagate to the caller. -/
theorem load_failsoft_counterexample :
    loadLearnedCategories FileState.denied = Except.error PyErr.permissionError ∧
    loadLearnedCategories (FileState.present FileContent.badUtf8) =
      Except.error PyErr.unicodeDecodeError :=
  ⟨rfl, rfl⟩

/-- C4 (amended): a missing knowledge file loads as the empty mapping, and
UTF-8 content that fails JSON parsing loads as the empty mapping without
raising; well-formed content loads as itself.  (Errors other than JSON parse
failures still propagate, per the counterexample.) -/
theorem load_failsoft_amended_claim :
    loadLearnedCategories FileState.missing = Except.ok [] ∧
    loadLearnedCategories (FileState.present FileContent.badJson) = Except.ok [] ∧
    (∀ s : Store, loadLearnedCategories (FileState.present (FileContent.jsonOf s)) =
      Except.ok s) :=
  ⟨rfl, rfl, fun _ => rfl⟩

/-- Helper: a category absent from the store is not found. -/
theorem find?_eq_none_of_any_false (store : Store) (cat : String)
    (h : store.any (fun p => p.1 = cat) = false) :
    store.find? (fun p => p.1 = cat) = none := by
  rw [List.find?_eq_none]
  intro x hx
  rw [List.any_eq_false] at h
  exact h x hx

/-- Helper: an absent category has no tokens. -/
theorem tokensOf_eq_nil_of_not_mem (store : Store) (cat : String)
    (h : store.any (fun p => p.1 = cat) = false) : tokensOf store cat = [] := by
  rw [tokensOf, find?_eq_none_of_any_false store cat h]

/-- Helper: appending a fresh category makes its tokens retrievable. -/
theorem tokensOf_append_new (store : Store) (cat : String) (d : CatData)
    (h : store.any (fun p => p.1 = cat) = false) :
    tokensOf (store ++ [(cat, d)]) cat = d.document_types := by
  rw [tokensOf, List.find?_append, find?_eq_none_of_any_false store cat h]
  simp

/-- Helper: `setTokens` updates exactly the looked-up token list. -/
theorem tokensOf_setTokens (store : Store) (cat : String) (ts : List String)
    (h : store.any (fun p => p.1 = cat) = true) :
    tokensOf (setTokens store cat ts) cat = ts := by
  induction store with
  | nil => simp at h
  | cons hd tl ih =>
    obtain ⟨c, d⟩ := hd
    by_cases hc : c = cat
    · subst hc
      rw [setTokens, if_pos rfl]
      simp [tokensOf, List.find?_cons]
    · rw [setTokens, if_neg hc]
      rw [List.any_cons] at h
      have htl : tl.any (fun p => p.1 = cat) = true := by
        simpa [hc] using h
      have := ih htl
      rw [tokensOf] at this ⊢
      rw [List.find?_cons]
      simpa [hc] using this

/-- Helper: a token is known case-insensitively after being appended. -/
theorem knownCI_append_self (ts : List String) (tok : String) :
    knownCI (ts ++ [tok]) tok = true := by
  simp [knownCI]

/-- Helper: `_update_category_knowledge` on a present category with a known
token is a no-op that does not save. -/
theorem update_present_known (store : Store) (cat tok now : String)
    (hp : store.any (fun p => p.1 = cat) = true)
    (hk : knownCI (tokensOf store cat) tok = true) :
    updateCategoryKnowledge store cat tok now = (store, false) := by
  simp only [updateCategoryKnowledge, hp, if_true, hk]

/-- Helper: `_update_category_knowledge` on a present category with an
unknown token appends it and saves. -/
theorem update_present_unknown (store : Store) (cat tok now : String)
    (hp : store.any (fun p => p.1 = cat) = true)
    (hk : knownCI (tokensOf store cat) tok = false) :
    updateCategoryKnowledge store cat tok now =
      (setTokens store cat (tokensOf store cat ++ [tok]), true) := by
  simp only [updateCategoryKnowledge, hp, if_true, hk]
  simp [hk]

/-- Helper: `_update_category_knowledge` on an absent category creates it
with the single token and saves. -/
theorem update_absent (store : Store) (cat tok now : String)
    (hp : store.any (fun p => p.1 = cat) = false) :
    updateCategoryKnowledge store cat tok now =
      (setTokens (store ++ [(cat, ⟨[], now⟩)]) cat [tok], true) := by
  have hnew := tokensOf_append_new store cat ⟨[], now⟩ hp
  simp only [updateCategoryKnowledge, hp, Bool.false_eq_true, if_false, hnew]
  simp [knownCI]

/-- C3: `record(category, token)` is idempotent with case-insensitive
de-duplication and persists immediately: a case-insensitively known token
changes nothing and writes nothing; otherwise the token is appended, the file
is rewritten with the new store at once, and reloading the file yields a
store whose token set for the category contains the token
case-insensitively. -/
theorem record_idempotent_persist_claim (ps : PersistState) (cat tok now : String) :
    (knownCI (tokensOf ps.mem cat) tok = true → recordPersist ps cat tok now = ps) ∧
    (knownCI (tokensOf ps.mem cat) tok = false →
      knownCI (tokensOf (recordPersist ps cat tok now).mem cat) tok = true ∧
      (recordPersist ps cat tok now).file =
        saveLearnedCategories (recordPersist ps cat tok now).mem ∧
      ∃ s : Store, loadLearnedCategories (recordPersist ps cat tok now).file = Except.ok s ∧
        knownCI (tokensOf s cat) tok = true) := by
  constructor
  · intro hk
    have hp : ps.mem.any (fun p => p.1 = cat) = true := by
      by_contra hcon
      rw [Bool.not_eq_true] at hcon
      rw [tokensOf_eq_nil_of_not_mem _ _ hcon] at hk
      exact absurd hk (by simp [knownCI])
    obtain ⟨mem, file⟩ := ps
    rw [recordPersist, update_present_known mem cat tok now hp hk]
    rfl
  · intro hk
    cases hp : ps.mem.any (fun p => p.1 = cat) with
    | true =>
      have hres : recordPersist ps cat tok now =
        ⟨setTokens ps.mem cat (tokensOf ps.mem cat ++ [tok]),
         saveLearnedCategories (setTokens ps.mem cat (tokensOf ps.mem cat ++ [tok]))⟩ := by
        rw [recordPersist, update_present_unknown ps.mem cat tok now hp hk]
        rfl
      rw [hres]
      have htk := tokensOf_setTokens ps.mem cat (tokensOf ps.mem cat ++ [tok]) hp
      refine ⟨?_, rfl, ?_⟩
      · rw [htk]
        exact knownCI_append_self _ _
      · exact ⟨_, rfl, by rw [htk]; exact knownCI_append_self _ _⟩
    | false =>
      have hanyNew : (ps.mem ++ [(cat, (⟨[], now⟩ : CatData))]).any
          (fun p => p.1 = cat) = true := by
        simp [List.any_append]
      have hres : recordPersist ps cat tok now =
        ⟨setTokens (ps.mem ++ [(cat, ⟨[], now⟩)]) cat [tok],
         saveLearnedCategories (setTokens (ps.mem ++ [(cat, ⟨[], now⟩)]) cat [tok])⟩ := by
        rw [recordPersist, update_absent ps.mem cat tok now hp]
        rfl
      rw [hres]
      have htk := tokensOf_setTokens (ps.mem ++ [(cat, ⟨[], now⟩)]) cat [tok] hanyNew
      refine ⟨?_, rfl, ?_⟩
      · rw [htk]
        simp [knownCI]
      · exact ⟨_, rfl, by rw [htk]; simp [knownCI]⟩

/-- C3 witness: recording `"Invoice"` under `"04 Rechnung"` when
`"invoice"` is already known changes nothing; recording the unknown
`"mahnung"` appends it, saves, and survives a reload. -/
theorem record_idempotent_persist_witness :
    (recordPersist ⟨[("04 Rechnung", ⟨["rechnung", "invoice"], "t"⟩)],
        saveLearnedCategories [("04 Rechnung", ⟨["rechnung", "invoice"], "t"⟩)]⟩
      "04 Rechnung" "Invoice" "t2" =
      ⟨[("04 Rechnung", ⟨["rechnung", "invoice"], "t"⟩)],
        saveLearnedCategories [("04 Rechnung", ⟨["rechnung", "invoice"], "t"⟩)]⟩) ∧
    (knownCI (tokensOf (recordPersist ⟨[("04 Rechnung", ⟨["rechnung"], "t"⟩)],
        saveLearnedCategories [("04 Rechnung", ⟨["rechnung"], "t"⟩)]⟩
      "04 Rechnung" "mahnung" "t2").mem "04 Rechnung") "mahnung" = true) := by
  constructor
  · exact (record_idempotent_persist_claim
      ⟨[("04 Rechnung", ⟨["rechnung", "invoice"], "t"⟩)],
        saveLearnedCategories [("04 Rechnung", ⟨["rechnung", "invoice"], "t"⟩)]⟩
      "04 Rechnung" "Invoice" "t2").1 (by decide)
  · exact ((record_idempotent_persist_claim
      ⟨[("04 Rechnung", ⟨["rechnung"], "t"⟩)],
        saveLearnedCategories [("04 Rechnung", ⟨["rechnung"], "t"⟩)]⟩
      "04 Rechnung" "mahnung" "t2").2 (by decide)).1

/-- Helper: a fold step of the shape `g pr ++ acc` splits off its initial
accumulator. -/
theorem foldr_appendInit {α β : Type} (g : α → List β) (l : List α) (X : List β) :
    l.foldr (fun pr acc => g pr ++ acc) X = l.foldr (fun pr acc => g pr ++ acc) [] ++ X := by
  induction l with
  | nil => simp
  | cons h t ih => simp [ih]

/-- Helper: filtering the walk's `(directory, files)` pairs by the
directory's own name equals the inline parent-name selection. -/
theorem walkChildren_fold (path : List String) : (es : List Entry) →
    (walkChildren path es).foldr
      (fun pr acc =>
        (if isYearDirName (lastName pr.1) then []
         else (pr.2.filter hasDocExt).map (fun f => pr.1 ++ [f])) ++ acc) []
      = specCollectChildren path es
  | [] => by simp [walkChildren, specCollectChildren]
  | .file n :: t => by
    rw [walkChildren, specCollectChildren]
    exact walkChildren_fold path t
  | .dir n ch :: t => by
    rw [walkChildren, specCollectChildren, List.foldr_append, List.foldr_cons,
      foldr_appendInit, foldr_appendInit, walkChildren_fold (path ++ [n]) ch,
      walkChildren_fold path t]
    have hl : lastName (path ++ [n]) = n := by
      simp [lastName]
    rw [hl]
    by_cases hy : isYearDirName n
    · simp [hy]
    · simp [hy, List.append_assoc]
  termination_by es => sizeOf es

/-- C7 counterexample: with a source tree `2023/sub/a.pdf`, discovery selects
`a.pdf` although it lies inside the four-digit directory `2023` — the code
only skips files whose *immediate* directory is four-digit-named and `os.walk`
still descends into year folders' subdirectories. -/
theorem discovery_counterexample :
    discoverFiles "docs" [Entry.dir "2023" [Entry.dir "sub" [Entry.file "a.pdf"]]] =
      [["docs", "2023", "sub", "a.pdf"]] ∧
    isYearDirName "2023" = true := by
  refine ⟨?_, by decide⟩
  simp only [discoverFiles, walkDir, walkChildren, fileNamesOf]
  norm_num [lastName, isYearDirName, hasDocExt, lowerChars]
  decide

/-- C7 (amended): the selected files are exactly the files under the source
root, in walk order, whose extension is one of pdf/jpg/jpeg/png compared
case-insensitively and whose immediate parent directory's name is not exactly
four digits; files in deeper subdirectories of a four-digit folder are still
selected. -/
theorem discovery_amended_claim (rootName : String) (fs : List Entry) :
    discoverFiles rootName fs = specDiscover rootName fs := by
  rw [discoverFiles, specDiscover, walkDir, List.foldr_cons, foldr_appendInit,
    walkChildren_fold [rootName] fs]
  have hl : lastName [rootName] = rootName := rfl
  rw [hl]
  by_cases hy : isYearDirName rootName
  · simp [hy]
  · simp [hy]

/-- Helper: the empty candidate is a substring of every known token. -/
theorem occursIn_nil (hay : List Char) : occursIn [] hay = true := by
  cases hay <;> simp [occursIn, List.isPrefixOf]

/-- Helper: the empty token matches every known token symmetrically. -/
theorem tokenMatches_empty (kt : String) : tokenMatches "" kt = true := by
  have h : lowerChars "".data = [] := rfl
  rw [tokenMatches, h, occursIn_nil]
  simp

/-- Helper: against the empty token, a category matches iff it has any known
token at all. -/
theorem any_tokenMatches_empty (l : List String) :
    (l.any fun kt => tokenMatches "" kt) = !l.isEmpty := by
  cases l with
  | nil => rfl
  | cons h t => simp [tokenMatches_empty]

/-- C10: on a store where some category has a known token, `suggest("")`
returns the first category with a nonempty token set and never `None`; the
stem of `"20230401.pdf"` extracts to the empty token; and whenever `suggest`
returns a category, the classification step returns it directly with the
store untouched — the interactive escalation path is never reached. -/
theorem empty_token_claim :
    (∀ store : Store, store.any (fun p => !p.2.document_types.isEmpty) = true →
      suggestCategory store "" =
        (store.find? (fun p => !p.2.document_types.isEmpty)).map Prod.fst ∧
      suggestCategory store "" ≠ none) ∧
    extractDocumentType "20230401.pdf" = "" ∧
    (∀ (cfg : SortConfig) (store : Store) (c : String),
      suggestCategory store (extractDocumentType "20230401.pdf") = some c →
      resolveCategory cfg store "20230401.pdf" = (c, store)) := by
  have hfun : (fun p : String × CatData =>
      p.2.document_types.any (fun kt => tokenMatches "" kt)) =
      (fun p : String × CatData => !p.2.document_types.isEmpty) :=
    funext (fun p => any_tokenMatches_empty _)
  refine ⟨fun store hst => ⟨?_, ?_⟩, by decide, fun cfg store c h => ?_⟩
  · rw [suggestCategory_eq_find, hfun]
  · rw [suggestCategory_eq_find, hfun]
    rw [List.any_eq_true] at hst
    obtain ⟨x, hx, hpx⟩ := hst
    cases hfind : store.find? (fun p : String × CatData => !p.2.document_types.isEmpty) with
    | none =>
      rw [List.find?_eq_none] at hfind
      exact absurd hpx (hfind x hx)
    | some y => simp
  · simp [resolveCategory, h]

/-- C10 witness: on the demo store the empty token resolves to the first
category with tokens, and `"20230401.pdf"` is classified there without
interaction. -/
theorem empty_token_witness :
    suggestCategory invoiceDemoStore "" = some "00 Sonstiges" ∧
    resolveCategory trivialConfig invoiceDemoStore "20230401.pdf" =
      ("00 Sonstiges", invoiceDemoStore) := by
  constructor
  · exact ((empty_token_claim.1 invoiceDemoStore (by decide)).1).trans (by decide)
  · exact empty_token_claim.2.2 trivialConfig invoiceDemoStore "00 Sonstiges" (by decide)

/-- Helper: `find?` returns an element satisfying the predicate, so a found
entry carries the looked-up name. -/
theorem findEntry_name (es : List Entry) (n : String) (e : Entry)
    (h : findEntry es n = some e) : entryName e = n := by
  have := List.find?_some h
  simpa using this

/-- Helper: an existing path of length at least two passes through a
directory at its head. -/
theorem existsPath_cons_dir (fs : List Entry) (a b : String) (rest : List String)
    (h : existsPath fs (a :: b :: rest) = true) :
    ∃ ch, findEntry fs a = some (.dir a ch) ∧ existsPath ch (b :: rest) = true := by
  simp only [existsPath] at h ⊢
  rw [getPath] at h
  cases hf : findEntry fs a with
  | none => rw [hf] at h; exact absurd h (by simp)
  | some e =>
    rw [hf] at h
    cases e with
    | file m => exact absurd h (by simp)
    | dir m ch =>
      have hm : m = a := findEntry_name fs a _ hf
      exact ⟨ch, by rw [hm], h⟩

/-- Helper: a three-component path that exists has an existing two-component
prefix. -/
theorem existsPath_two_of_three (fs : List Entry) (a b c : String)
    (h : existsPath fs [a, b, c] = true) : existsPath fs [a, b] = true := by
  obtain ⟨ch, hf, h2⟩ := existsPath_cons_dir fs a b [c] h
  obtain ⟨ch2, hf2, h3⟩ := existsPath_cons_dir ch b c [] h2
  simp only [existsPath]
  rw [getPath, hf]
  simp [getPath, hf2]

/-- C9: when the computed target path already exists and the overwrite prompt
is declined, the per-file step ends with the filesystem and the session
report exactly as they were — the source file stays, nothing moves, nothing
is recorded (the knowledge store may still have learned from the
classification dialog). -/
theorem overwrite_decline_claim (cfg : SortConfig) (st : SortState) (filePath : List String)
    (h1 : existsPath st.fs (plannedTarget cfg st filePath) = true)
    (h2 : cfg.overwrite (plannedTarget cfg st filePath) = false) :
    processFile cfg st filePath =
      .ok ⟨st.fs, (resolveCategory cfg st.store (lastName filePath)).2, st.results⟩ := by
  cases hY : extractYear (lastName filePath) with
  | none =>
    have hT : plannedTarget cfg st filePath =
        [(resolveCategory cfg st.store (lastName filePath)).1,
         formatFilename (lastName filePath)] := by
      simp only [plannedTarget, hY]
      rfl
    rw [hT] at h1 h2
    obtain ⟨ch, hf, -⟩ := existsPath_cons_dir st.fs _ _ [] h1
    have hmk : mkdirCategory st.fs (resolveCategory cfg st.store (lastName filePath)).1 =
        some st.fs := by
      rw [mkdirCategory, hf]
    simp only [processFile, hY, hmk]
    simp [h1, h2]
  | some y =>
    cases hEx : existsPath st.fs [(resolveCategory cfg st.store (lastName filePath)).1, y] with
    | false =>
      have hT : plannedTarget cfg st filePath =
          [(resolveCategory cfg st.store (lastName filePath)).1, y,
           formatFilename (lastName filePath)] := by
        simp only [plannedTarget, hY, hEx]
        rfl
      rw [hT] at h1 h2
      exact absurd (existsPath_two_of_three _ _ _ _ h1) (by simp [hEx])
    | true =>
      cases hNd : isDirPath st.fs [(resolveCategory cfg st.store (lastName filePath)).1, y] with
      | false =>
        have hT : plannedTarget cfg st filePath =
            [(resolveCategory cfg st.store (lastName filePath)).1,
             formatFilename (lastName filePath)] := by
          simp only [plannedTarget, hY, hEx, hNd]
          rfl
        rw [hT] at h1 h2
        obtain ⟨ch, hf, -⟩ := existsPath_cons_dir st.fs _ _ [] h1
        have hmk : mkdirCategory st.fs (resolveCategory cfg st.store (lastName filePath)).1 =
            some st.fs := by
          rw [mkdirCategory, hf]
        simp only [processFile, hY, hmk, hEx, hNd]
        simp [h1, h2]
      | true =>
        have hT : plannedTarget cfg st filePath =
            [(resolveCategory cfg st.store (lastName filePath)).1, y,
             formatFilename (lastName filePath)] := by
          simp only [plannedTarget, hY, hEx, hNd]
          rfl
        rw [hT] at h1 h2
        obtain ⟨ch, hf, -⟩ := existsPath_cons_dir st.fs _ y _ h1
        have hmk : mkdirCategory st.fs (resolveCategory cfg st.store (lastName filePath)).1 =
            some st.fs := by
          rw [mkdirCategory, hf]
        simp only [processFile, hY, hmk, hEx, hNd]
        simp [h1, h2]

/-- C9 witness: declining the overwrite of an already-sorted
`"invoice.pdf"` leaves the tree and the report untouched. -/
theorem overwrite_decline_witness :
    processFile trivialConfig
      ⟨[Entry.file "invoice.pdf", Entry.dir "04 Rechnung" [Entry.file "invoice.pdf"]],
       invoiceDemoStore, []⟩ ["invoice.pdf"] =
      .ok ⟨[Entry.file "invoice.pdf", Entry.dir "04 Rechnung" [Entry.file "invoice.pdf"]],
           invoiceDemoStore, []⟩ := by
  have h := overwrite_decline_claim trivialConfig
    ⟨[Entry.file "invoice.pdf", Entry.dir "04 Rechnung" [Entry.file "invoice.pdf"]],
     invoiceDemoStore, []⟩ ["invoice.pdf"] (by decide) (by rfl)
  exact h.trans (by rfl)

/-! ### Directory-view lemmas for the filesystem model -/
theorem dirView_cons (e : Entry) (t : List Entry) (m : String) :
    dirView (e :: t) m =
      if entryName e = m then
        (match e with | .dir _ ch => some ch | .file _ => none)
      else dirView t m := by
  rw [dirView, findEntry, List.find?_cons]
  by_cases h : entryName e = m
  · simp only [h, decide_True]
    cases e <;> rfl
  · simp only [h, decide_False, if_neg h]
    rfl

theorem dirView_nil (m : String) : dirView [] m = none := rfl

theorem isDirPath_cons (es : List Entry) (n : String) (rest : List String) :
    isDirPath es (n :: rest) =
      match dirView es n with
      | some ch => isDirPath ch rest
      | none => false := by
  rw [isDirPath, dirView]
  cases findEntry es n with
  | none => rfl
  | some e => cases e <;> rfl

theorem isDirPath_congr_of_view (es es' : List Entry)
    (h : ∀ n, dirView es' n = dirView es n) :
    ∀ p, isDirPath es' p = isDirPath es p
  | [] => rfl
  | n :: rest => by
    rw [isDirPath_cons, isDirPath_cons, h n]

theorem dirView_mapDirList (es : List Entry) (n : String) (g : List Entry → List Entry)
    (m : String) :
    dirView (mapDirList es n g) m =
      if m = n then (dirView es n).map g else dirView es m := by
  induction es with
  | nil =>
    by_cases h : m = n <;> simp [mapDirList, dirView_nil, h]
  | cons e t ih =>
    rw [mapDirList.eq_def]
    dsimp only
    by_cases he : entryName e = n
    · rw [if_pos he]
      cases e with
      | file s =>
        by_cases h : m = n <;> simp [dirView_cons, he, h]
      | dir s ch =>
        have hs : s = n := he
        subst hs
        by_cases h : m = s
        · simp [dirView_cons, entryName, h]
        · have h2 : ¬ s = m := fun hc => h hc.symm
          simp [dirView_cons, entryName, h, h2]
    · rw [if_neg he]
      by_cases hm : entryName e = m
      · have hmn : ¬ m = n := fun hc => he (hc ▸ hm)
        simp [dirView_cons, hm, hmn]
      · by_cases h : m = n
        · subst h
          simp [dirView_cons, hm, ih]
        · simp [dirView_cons, hm, h, ih]


theorem listingAt_cons (es : List Entry) (n : String) (rest : List String) :
    listingAt es (n :: rest) =
      match dirView es n with
      | some ch => listingAt ch rest
      | none => none := rfl

theorem names_mapDirList (es : List Entry) (n : String) (g : List Entry → List Entry) :
    (mapDirList es n g).map entryName = es.map entryName := by
  induction es with
  | nil => rfl
  | cons e t ih =>
    rw [mapDirList.eq_def]
    dsimp only
    by_cases he : entryName e = n
    · rw [if_pos he]
      cases e <;> simp [entryName]
    · rw [if_neg he]
      simp [ih]

theorem isDirPath_mapDirAt : ∀ (q : List String) (es : List Entry)
    (f : List Entry → List Entry),
    (∀ L, listingAt es q = some L → ∀ n, dirView (f L) n = dirView L n) →
    ∀ p, isDirPath (mapDirAt es q f) p = isDirPath es p
  | [], es, f, hf, p => isDirPath_congr_of_view es (f es) (hf es rfl) p
  | n :: rest, es, f, hf, p => by
    cases p with
    | nil => rfl
    | cons m pr =>
      rw [mapDirAt, isDirPath_cons, isDirPath_cons, dirView_mapDirList]
      by_cases hmn : m = n
      · subst hmn
        cases hv : dirView es m with
        | none => simp
        | some ch =>
          simp only [if_pos rfl, hv, Option.map_some']
          exact isDirPath_mapDirAt rest ch f
            (fun L hL n2 => hf L (by rw [listingAt_cons, hv]; exact hL) n2) pr
      · simp [hmn]

theorem namesAt_mapDirAt : ∀ (qr : List String) (es : List Entry)
    (f : List Entry → List Entry),
    (∀ L, listingAt es qr = some L → ∀ n, dirView (f L) n = dirView L n) →
    (∀ L, ((f L).map entryName).Sublist (L.map entryName)) →
    ∀ (q : List String) (L2 : List Entry),
    listingAt (mapDirAt es qr f) q = some L2 →
    ∃ L, listingAt es q = some L ∧ (L2.map entryName).Sublist (L.map entryName)
  | [], es, f, hview, hnames, q, L2, h => by
    cases q with
    | nil =>
      rw [mapDirAt] at h
      exact ⟨es, rfl, by rw [show L2 = f es from by simpa [listingAt] using h.symm]; exact hnames es⟩
    | cons m s =>
      rw [mapDirAt, listingAt_cons, hview es rfl m] at h
      rw [listingAt_cons]
      cases hv : dirView es m with
      | none => rw [hv] at h; exact absurd h (by simp)
      | some ch =>
        rw [hv] at h
        exact ⟨L2, h, List.Sublist.refl _⟩
  | nr :: qr', es, f, hview, hnames, q, L2, h => by
    cases q with
    | nil =>
      rw [mapDirAt] at h
      refine ⟨es, rfl, ?_⟩
      rw [show L2 = mapDirList es nr (fun ch => mapDirAt ch qr' f) from by simpa [listingAt] using h.symm,
        names_mapDirList]
    | cons m s =>
      rw [mapDirAt, listingAt_cons, dirView_mapDirList] at h
      rw [listingAt_cons]
      by_cases hmn : m = nr
      · subst hmn
        cases hv : dirView es m with
        | none => rw [hv] at h; simp at h
        | some ch =>
          rw [hv] at h
          simp only [if_pos rfl, Option.map_some'] at h
          exact namesAt_mapDirAt qr' ch f
            (fun L hL n2 => hview L (by rw [listingAt_cons, hv]; exact hL) n2) hnames s L2 h
      · rw [if_neg hmn] at h
        cases hv : dirView es m with
        | none => rw [hv] at h; simp at h
        | some ch =>
          rw [hv] at h
          exact ⟨L2, h, List.Sublist.refl _⟩


theorem getPath_cons_cons (es : List Entry) (n r : String) (rs : List String) :
    getPath es (n :: r :: rs) =
      match dirView es n with
      | some ch => getPath ch (r :: rs)
      | none => none := by
  rw [getPath, dirView]
  cases findEntry es n with
  | none => rfl
  | some e => cases e <;> rfl

theorem getPath_single (es : List Entry) (m : String) :
    getPath es [m] = findEntry es m := by
  rw [getPath]
  cases findEntry es m with
  | none => rfl
  | some e => rfl

theorem getPath_append_last : ∀ (q : List String) (es : List Entry) (m : String),
    getPath es (q ++ [m]) = (listingAt es q).bind (fun L => findEntry L m)
  | [], es, m => by simp [getPath_single, listingAt]
  | n :: q', es, m => by
    rw [List.cons_append, listingAt_cons]
    have key : getPath es (n :: (q' ++ [m])) =
        match dirView es n with
        | some ch => getPath ch (q' ++ [m])
        | none => none := by
      cases hq : q' ++ [m] with
      | nil => exact absurd hq (by simp)
      | cons r rs => exact getPath_cons_cons es n r rs
    rw [key]
    cases dirView es n with
    | none => simp
    | some ch => simpa using getPath_append_last q' ch m

theorem existsPath_ne_nil (es : List Entry) (p : List String) (h : p ≠ []) :
    existsPath es p = (getPath es p).isSome := by
  cases p with
  | nil => exact absurd rfl h
  | cons a b => rfl

theorem existsPath_append_last (q : List String) (es : List Entry) (m : String)
    (L : List Entry) (h : listingAt es q = some L) :
    existsPath es (q ++ [m]) = (findEntry L m).isSome := by
  rw [existsPath_ne_nil es _ (by simp), getPath_append_last, h]
  rfl

theorem isDirPath_append_last : ∀ (q : List String) (es : List Entry) (m : String)
    (L : List Entry), listingAt es q = some L →
    isDirPath es (q ++ [m]) = (dirView L m).isSome
  | [], es, m, L, h => by
    obtain rfl : es = L := by simpa [listingAt] using h
    rw [List.nil_append, isDirPath_cons]
    cases dirView es m with
    | none => rfl
    | some ch => rfl
  | n :: q', es, m, L, h => by
    rw [listingAt_cons] at h
    rw [List.cons_append, isDirPath_cons]
    cases hv : dirView es n with
    | none => rw [hv] at h; exact absurd h (by simp)
    | some ch =>
      rw [hv] at h
      exact isDirPath_append_last q' ch m L h

theorem findEntry_eq_none_iff (L : List Entry) (m : String) :
    findEntry L m = none ↔ m ∉ L.map entryName := by
  rw [findEntry, List.find?_eq_none]
  constructor
  · intro h hm
    obtain ⟨e, he, hname⟩ := List.mem_map.mp hm
    exact h e he (by simp [hname])
  · intro h e he hname
    exact h (List.mem_map.mpr ⟨e, he, by simpa using hname⟩)

theorem dirView_removeFile (L : List Entry) (s : String) :
    ∀ (fe : String), findEntry L s = some (.file fe) →
    (L.map entryName).Nodup →
    ∀ n, dirView (removeFirstNamed L s) n = dirView L n := by
  induction L with
  | nil => intro fe hfind; simp [findEntry] at hfind
  | cons e t ih =>
    intro fe hfind hnd n
    by_cases he : entryName e = s
    · have hfe : e = .file fe := by
        rw [findEntry, List.find?_cons_of_pos _ (by simpa using he)] at hfind
        simpa using hfind
      rw [removeFirstNamed, if_pos he]
      by_cases hn : n = s
      · subst hn
        have hmem : entryName e ∉ t.map entryName := by
          simp only [List.map_cons, List.nodup_cons] at hnd
          exact hnd.1
        have hnot : findEntry t n = none := by
          rw [findEntry_eq_none_iff, ← he]
          exact hmem
        rw [dirView_cons, if_pos he, hfe]
        rw [dirView, hnot]
      · have hne : ¬ entryName e = n := by
          rw [he]
          exact fun hc => hn hc.symm
        rw [dirView_cons, if_neg hne]
    · rw [removeFirstNamed, if_neg he]
      have hfind2 : findEntry t s = some (.file fe) := by
        rw [findEntry, List.find?_cons_of_neg _ (by simpa using he)] at hfind
        exact hfind
      have hnd2 : (t.map entryName).Nodup := by
        simp only [List.map_cons, List.nodup_cons] at hnd
        exact hnd.2
      rw [dirView_cons, dirView_cons]
      by_cases hn : entryName e = n
      · rw [if_pos hn, if_pos hn]
      · rw [if_neg hn, if_neg hn]
        exact ih fe hfind2 hnd2 n


theorem names_removeFirstNamed (L : List Entry) (s : String) :
    ((removeFirstNamed L s).map entryName).Sublist (L.map entryName) := by
  induction L with
  | nil => simp [removeFirstNamed]
  | cons e t ih =>
    rw [removeFirstNamed]
    by_cases he : entryName e = s
    · rw [if_pos he]
      exact List.sublist_cons_self _ _
    · rw [if_neg he]
      simpa using ih

theorem findEntry_cons (e : Entry) (t : List Entry) (n : String) :
    findEntry (e :: t) n = if entryName e = n then some e else findEntry t n := by
  rw [findEntry, List.find?_cons]
  by_cases h : entryName e = n
  · simp [h]
  · simp [h, findEntry]

theorem dirView_append_file (L : List Entry) (fn : String) :
    findEntry L fn = none →
    ∀ n, dirView (L ++ [Entry.file fn]) n = dirView L n := by
  induction L with
  | nil =>
    intro hfresh n
    rw [List.nil_append, dirView_cons, dirView_nil]
    by_cases h : fn = n <;> simp [entryName, h]
  | cons e t ih =>
    intro hfresh n
    rw [findEntry_cons] at hfresh
    by_cases he : entryName e = fn
    · rw [if_pos he] at hfresh
      exact absurd hfresh (by simp)
    · rw [if_neg he] at hfresh
      rw [List.cons_append, dirView_cons, dirView_cons]
      by_cases hn : entryName e = n
      · rw [if_pos hn, if_pos hn]
      · rw [if_neg hn, if_neg hn]
        exact ih hfresh n

theorem dirView_replace_file (L : List Entry) (m : String) :
    dirView L m = none →
    ∀ n, dirView (replaceFirstNamed L m (Entry.file m)) n = dirView L n := by
  induction L with
  | nil => intro hview n; rfl
  | cons e t ih =>
    intro hview n
    by_cases he : entryName e = m
    · rw [replaceFirstNamed, if_pos he]
      rw [dirView_cons, if_pos he] at hview
      rw [dirView_cons, dirView_cons]
      have hfm : entryName (Entry.file m) = entryName e := he.symm
      rw [hfm]
      by_cases hn : entryName e = n
      · rw [if_pos hn, if_pos hn, hview]
      · rw [if_neg hn, if_neg hn]
    · rw [replaceFirstNamed, if_neg he]
      rw [dirView_cons, if_neg he] at hview
      rw [dirView_cons, dirView_cons]
      by_cases hn : entryName e = n
      · rw [if_pos hn, if_pos hn]
      · rw [if_neg hn, if_neg hn]
        exact ih hview n

theorem dirView_append_dir (L : List Entry) (c : String) (ch : List Entry) :
    findEntry L c = none →
    ∀ n, dirView (L ++ [Entry.dir c ch]) n = if n = c then some ch else dirView L n := by
  induction L with
  | nil =>
    intro hfresh n
    rw [List.nil_append, dirView_cons, dirView_nil]
    by_cases h : n = c
    · simp [entryName, h]
    · have h2 : ¬ c = n := fun hc => h hc.symm
      simp [entryName, h, h2]
  | cons e t ih =>
    intro hfresh n
    rw [findEntry_cons] at hfresh
    by_cases he : entryName e = c
    · rw [if_pos he] at hfresh
      exact absurd hfresh (by simp)
    · rw [if_neg he] at hfresh
      rw [List.cons_append, dirView_cons, dirView_cons]
      by_cases hn : entryName e = n
      · have hnc : ¬ n = c := fun hc => he (hc ▸ hn)
        rw [if_pos hn, if_pos hn, if_neg hnc]
      · rw [if_neg hn, if_neg hn]
        exact ih hfresh n

theorem findEntry_append (L : List Entry) (E : Entry) (n : String) :
    findEntry (L ++ [E]) n =
      (findEntry L n).or (if entryName E = n then some E else none) := by
  induction L with
  | nil => simp [findEntry_cons, findEntry]
  | cons e t ih =>
    rw [List.cons_append, findEntry_cons, findEntry_cons]
    by_cases he : entryName e = n
    · rw [if_pos he, if_pos he]
      rfl
    · rw [if_neg he, if_neg he, ih]

theorem getPath_append_ne (fs : List Entry) (E : Entry) (m : String) (rest : List String)
    (hm : ¬ entryName E = m) : getPath (fs ++ [E]) (m :: rest) = getPath fs (m :: rest) := by
  rw [getPath, getPath, findEntry_append, if_neg hm]
  cases findEntry fs m with
  | none => rfl
  | some e => rfl
end PdfSorter
namespace PdfSorter

theorem lastName_concat (q : List String) (m : String) : lastName (q ++ [m]) = m := by
  simp [lastName]

theorem path_decomp (p : List String) (hp : p ≠ []) :
    p = p.dropLast ++ [lastName p] := by
  cases hl : p.getLast? with
  | none => exact absurd (by simpa using hl) (by simpa using hp)
  | some a =>
    have := List.dropLast_append_getLast? a hl
    rw [lastName, hl]
    exact this.symm

theorem getPath_nonnil (fs : List Entry) (p : List String) (e : Entry)
    (h : getPath fs p = some e) : p ≠ [] := by
  intro hc
  subst hc
  rw [getPath] at h
  exact Option.noConfusion h

theorem getPath_listing (fs : List Entry) (p : List String) (e : Entry)
    (h : getPath fs p = some e) :
    ∃ L, listingAt fs p.dropLast = some L ∧ findEntry L (lastName p) = some e := by
  have hp := getPath_nonnil fs p e h
  rw [path_decomp p hp, getPath_append_last] at h
  cases hL : listingAt fs p.dropLast with
  | none => rw [hL] at h; exact absurd h (by simp)
  | some L => rw [hL] at h; exact ⟨L, rfl, by simpa using h⟩

theorem removeFile_hf (fs : List Entry) (p : List String) (fe : String)
    (h : getPath fs p = some (.file fe))
    (hnd : nodupListing fs p.dropLast = true) :
    ∀ L, listingAt fs p.dropLast = some L →
      ∀ n, dirView (removeFirstNamed L (lastName p)) n = dirView L n := by
  obtain ⟨L0, hL0, hfind⟩ := getPath_listing fs p _ h
  intro L hL n
  obtain rfl : L0 = L := by rw [hL0] at hL; exact Option.some.inj hL
  have hnodup : (L0.map entryName).Nodup := by
    rw [nodupListing, hL0] at hnd
    simpa using hnd
  exact dirView_removeFile L0 (lastName p) fe hfind hnodup n

end PdfSorter
namespace PdfSorter
set_option maxHeartbeats 1000000

theorem shutilMove_file_dirs (fs : List Entry) (src dst : List String)
    (fe : String) (hsrc : getPath fs src = some (.file fe))
    (hnd : nodupListing fs src.dropLast = true)
    (fs3 : List Entry) (hmv : shutilMove fs src dst = some fs3) :
    ∀ p, isDirPath fs3 p = isDirPath fs p := by
  have hf1 := removeFile_hf fs src fe hsrc hnd
  have hRemDirs : ∀ p, isDirPath (removePath fs src) p = isDirPath fs p := by
    intro p
    rw [removePath]
    exact isDirPath_mapDirAt src.dropLast fs _ hf1 p
  have hRemNames : ∀ q L2, listingAt (removePath fs src) q = some L2 →
      ∃ L, listingAt fs q = some L ∧ (L2.map entryName).Sublist (L.map entryName) := by
    intro q L2 hq
    rw [removePath] at hq
    exact namesAt_mapDirAt src.dropLast fs _ hf1
      (fun L => names_removeFirstNamed L (lastName src)) q L2 hq
  rw [shutilMove, hsrc] at hmv
  dsimp only [entryName] at hmv
  by_cases hdir : isDirPath fs dst = true
  · rw [if_pos hdir] at hmv
    by_cases hg : src = dst ++ [fe] ∨ src.isPrefixOf (dst ++ [fe]) = true
    · rw [if_pos hg] at hmv
      exact absurd hmv (by simp)
    · rw [if_neg hg] at hmv
      by_cases hex : existsPath fs (dst ++ [fe]) = true
      · rw [if_pos hex] at hmv
        exact absurd hmv (by simp)
      · rw [if_neg hex] at hmv
        obtain rfl : insertAtDir (removePath fs src) dst (Entry.file fe) = fs3 :=
          Option.some.inj hmv
        intro p
        rw [insertAtDir]
        rw [isDirPath_mapDirAt dst (removePath fs src) _ ?hf2 p]
        · exact hRemDirs p
        case hf2 =>
          intro L2 hL2 n
          obtain ⟨L, hL, hsub⟩ := hRemNames dst L2 hL2
          have hfree : findEntry L fe = none := by
            rw [existsPath_append_last dst fs fe L hL] at hex
            cases hfind2 : findEntry L fe with
            | none => rfl
            | some e2 => rw [hfind2] at hex; exact absurd (by simp) hex
          have hfree2 : findEntry L2 fe = none := by
            rw [findEntry_eq_none_iff] at hfree ⊢
            exact fun hmem => hfree (hsub.subset hmem)
          exact dirView_append_file L2 fe hfree2 n
  · rw [if_neg hdir] at hmv
    by_cases hex : existsPath fs dst = true
    · rw [if_pos hex] at hmv
      by_cases heq : src = dst
      · rw [if_pos heq] at hmv
        obtain rfl : fs = fs3 := Option.some.inj hmv
        intro p
        rfl
      · rw [if_neg heq] at hmv
        obtain rfl : replaceAt (removePath fs src) dst (Entry.file (lastName dst)) = fs3 :=
          Option.some.inj hmv
        have hdne : dst ≠ [] := by
          intro hc
          subst hc
          exact hdir rfl
        intro p
        rw [replaceAt]
        rw [isDirPath_mapDirAt dst.dropLast (removePath fs src) _ ?hf3 p]
        · exact hRemDirs p
        case hf3 =>
          intro L2 hL2 n
          have hNoDir : isDirPath (removePath fs src) dst = false := by
            rw [hRemDirs dst]
            simpa using hdir
          rw [path_decomp dst hdne] at hNoDir
          rw [isDirPath_append_last dst.dropLast _ (lastName dst) L2 hL2] at hNoDir
          have hview : dirView L2 (lastName dst) = none := by
            cases hv : dirView L2 (lastName dst) with
            | none => rfl
            | some ch => rw [hv] at hNoDir; exact absurd hNoDir (by simp)
          exact dirView_replace_file L2 (lastName dst) hview n
    · rw [if_neg hex] at hmv
      by_cases hpar : isDirPath fs dst.dropLast = true
      · rw [if_pos hpar] at hmv
        by_cases hpre : src.isPrefixOf dst = true
        · rw [if_pos hpre] at hmv
          exact absurd hmv (by simp)
        · rw [if_neg hpre] at hmv
          obtain rfl : insertAtDir (removePath fs src) dst.dropLast
              (renameEntry (Entry.file fe) (lastName dst)) = fs3 :=
            Option.some.inj hmv
          have hdne : dst ≠ [] := by
            intro hc
            subst hc
            rw [existsPath] at hex
            exact hex rfl
          intro p
          rw [insertAtDir, renameEntry]
          rw [isDirPath_mapDirAt dst.dropLast (removePath fs src) _ ?hf4 p]
          · exact hRemDirs p
          case hf4 =>
            intro L2 hL2 n
            obtain ⟨L, hL, hsub⟩ := hRemNames dst.dropLast L2 hL2
            have hfree : findEntry L (lastName dst) = none := by
              rw [path_decomp dst hdne] at hex
              rw [existsPath_append_last dst.dropLast fs (lastName dst) L ?hLx] at hex
              case hLx =>
                exact hL
              cases hfind2 : findEntry L (lastName dst) with
              | none => rfl
              | some e2 => rw [hfind2] at hex; exact absurd (by simp) hex
            have hfree2 : findEntry L2 (lastName dst) = none := by
              rw [findEntry_eq_none_iff] at hfree ⊢
              exact fun hmem => hfree (hsub.subset hmem)
            exact dirView_append_file L2 (lastName dst) hfree2 n
      · rw [if_neg hpar] at hmv
        exact absurd hmv (by simp)

end PdfSorter
namespace PdfSorter

theorem mkdirCategory_cases (fs : List Entry) (cat : String) (fs1 : List Entry)
    (h : mkdirCategory fs cat = some fs1) :
    (fs1 = fs ∧ ∃ ch, findEntry fs cat = some (.dir cat ch)) ∨
    (findEntry fs cat = none ∧ fs1 = fs ++ [Entry.dir cat []]) := by
  rw [mkdirCategory] at h
  cases hf : findEntry fs cat with
  | none =>
    rw [hf] at h
    exact Or.inr ⟨rfl, (Option.some.inj h).symm⟩
  | some e =>
    rw [hf] at h
    cases e with
    | file m => exact absurd h (by simp)
    | dir m ch =>
      have hm : m = cat := findEntry_name _ _ _ hf
      subst hm
      exact Or.inl ⟨(Option.some.inj h).symm, ch, rfl⟩

theorem isDirPath_append_newdir (fs : List Entry) (cat : String)
    (hfresh : findEntry fs cat = none) (p : List String)
    (h : isDirPath (fs ++ [Entry.dir cat []]) p = true) :
    isDirPath fs p = true ∨ p = [cat] := by
  cases p with
  | nil => exact Or.inl rfl
  | cons m pr =>
    rw [isDirPath_cons, dirView_append_dir fs cat [] hfresh m] at h
    by_cases hm : m = cat
    · rw [if_pos hm] at h
      cases pr with
      | nil => exact Or.inr (by rw [hm])
      | cons x xs =>
        dsimp only at h
        rw [isDirPath_cons, dirView_nil] at h
        exact absurd h (by simp)
    · rw [if_neg hm] at h
      rw [isDirPath_cons]
      exact Or.inl h

theorem getPath_append_dir_some (fs : List Entry) (cat : String)
    (hfresh : findEntry fs cat = none)
    (p : List String) (e : Entry) (h : getPath fs p = some e) :
    getPath (fs ++ [Entry.dir cat []]) p = some e := by
  cases p with
  | nil => rw [getPath] at h; exact absurd h (by simp)
  | cons hd tl =>
    have hne : ¬ entryName (Entry.dir cat []) = hd := by
      intro hc
      have : cat = hd := hc
      subst this
      rw [getPath, hfresh] at h
      exact absurd h (by simp)
    rw [getPath_append_ne fs _ hd tl hne]
    exact h

theorem nodup_append_dir (fs : List Entry) (cat : String)
    (hfresh : findEntry fs cat = none)
    (hnd : ((fs.map entryName)).Nodup) :
    (((fs ++ [Entry.dir cat []]).map entryName)).Nodup := by
  rw [List.map_append]
  rw [List.nodup_append]
  refine ⟨hnd, by simp, ?_⟩
  intro a ha hb
  rw [findEntry_eq_none_iff] at hfresh
  simp only [List.map_cons, List.map_nil, List.mem_singleton] at hb
  subst hb
  exact hfresh (by simpa [entryName] using ha)

theorem listingAt_append_dir_ne (fs : List Entry) (cat : String)
    (hfresh : findEntry fs cat = none) (m : String) (tl : List String)
    (hm : ¬ m = cat) :
    listingAt (fs ++ [Entry.dir cat []]) (m :: tl) = listingAt fs (m :: tl) := by
  rw [listingAt_cons, listingAt_cons, dirView_append_dir fs cat [] hfresh m, if_neg hm]

end PdfSorter
namespace PdfSorter

theorem nodupListing_append_dir (fs : List Entry) (cat : String)
    (hfresh : findEntry fs cat = none) (q : List String)
    (hnd : nodupListing fs q = true) :
    nodupListing (fs ++ [Entry.dir cat []]) q = true := by
  cases q with
  | nil =>
    have h1 : ((fs.map entryName)).Nodup := by
      have he : nodupListing fs [] = decide ((fs.map entryName)).Nodup := rfl
      rw [he] at hnd
      exact of_decide_eq_true hnd
    have he2 : nodupListing (fs ++ [Entry.dir cat []]) [] =
        decide (((fs ++ [Entry.dir cat []]).map entryName)).Nodup := rfl
    rw [he2]
    exact decide_eq_true (nodup_append_dir fs cat hfresh h1)
  | cons m tl =>
    by_cases hm : m = cat
    · subst hm
      rw [nodupListing, listingAt_cons, dirView_append_dir fs m [] hfresh m, if_pos rfl]
      dsimp only
      cases tl with
      | nil => rfl
      | cons x xs => rfl
    · rw [nodupListing, listingAt_cons, dirView_append_dir fs cat [] hfresh m, if_neg hm,
        ← listingAt_cons, ← nodupListing]
      exact hnd

/-- C8: no-year fallback and report grouping. For a processed file whose name
has no `20\d{2}` substring, the computed target is directly under the category
folder; whatever the per-file step does, the only directory it may add is the
category folder itself (no year subfolder is created or used), and the only
report entry it may add is under that category's distinct `"no_year"` group;
in the formatted report the `"no_year"` group contributes bare names while a
year group `y` contributes `"y/name"`. -/
theorem noyear_fallback_claim (cfg : SortConfig) (st : SortState) (filePath : List String)
    (fe : String)
    (hY : extractYear (lastName filePath) = none)
    (hfile : getPath st.fs filePath = some (Entry.file fe))
    (hnd : nodupListing st.fs filePath.dropLast = true) :
    plannedTarget cfg st filePath =
      [(resolveCategory cfg st.store (lastName filePath)).1,
       formatFilename (lastName filePath)] ∧
    (∀ st', processFile cfg st filePath = .ok st' →
      (∀ p, isDirPath st'.fs p = true →
        isDirPath st.fs p = true ∨
          p = [(resolveCategory cfg st.store (lastName filePath)).1]) ∧
      (st'.results = st.results ∨
        st'.results = addResult st.results
          (resolveCategory cfg st.store (lastName filePath)).1
          "no_year" (formatFilename (lastName filePath)))) ∧
    (∀ fl t, formatGroups (("no_year", fl) :: t) = fl ++ formatGroups t) ∧
    (∀ y fl t, ¬ y = "no_year" →
      formatGroups ((y, fl) :: t) = fl.map (fun f => y ++ "/" ++ f) ++ formatGroups t) ∧
    (∀ res, formatResults res = res.map (fun pr => (pr.1, formatGroups pr.2))) := by
  refine ⟨by simp only [plannedTarget, hY]; rfl, ?_, ?_, ?_, fun res => rfl⟩
  · intro st' hok
    simp only [processFile, hY, List.singleton_append] at hok
    cases hmk : mkdirCategory st.fs (resolveCategory cfg st.store (lastName filePath)).1 with
    | none =>
      rw [hmk] at hok
      exact absurd hok (by simp)
    | some fs1 =>
      rw [hmk] at hok
      dsimp only at hok
      have hcase := mkdirCategory_cases st.fs _ fs1 hmk
      have hfile1 : getPath fs1 filePath = some (Entry.file fe) := by
        rcases hcase with ⟨rfl, -⟩ | ⟨hfresh, rfl⟩
        · exact hfile
        · exact getPath_append_dir_some st.fs _ hfresh filePath _ hfile
      have hnd1 : nodupListing fs1 filePath.dropLast = true := by
        rcases hcase with ⟨rfl, -⟩ | ⟨hfresh, rfl⟩
        · exact hnd
        · exact nodupListing_append_dir st.fs _ hfresh filePath.dropLast hnd
      have hdir1 : ∀ p, isDirPath fs1 p = true →
          isDirPath st.fs p = true ∨
            p = [(resolveCategory cfg st.store (lastName filePath)).1] := by
        rcases hcase with ⟨rfl, -⟩ | ⟨hfresh, rfl⟩
        · exact fun p h => Or.inl h
        · exact isDirPath_append_newdir st.fs _ hfresh
      by_cases hskip :
          (existsPath fs1
              [(resolveCategory cfg st.store (lastName filePath)).1,
               formatFilename (lastName filePath)] &&
            !cfg.overwrite
              [(resolveCategory cfg st.store (lastName filePath)).1,
               formatFilename (lastName filePath)]) = true
      · rw [if_pos hskip] at hok
        obtain rfl := Except.ok.inj hok
        exact ⟨hdir1, Or.inl rfl⟩
      · rw [if_neg hskip] at hok
        cases hsm : shutilMove fs1 filePath
            [(resolveCategory cfg st.store (lastName filePath)).1,
             formatFilename (lastName filePath)] with
        | none =>
          rw [hsm] at hok
          dsimp only at hok
          obtain rfl := Except.ok.inj hok
          exact ⟨hdir1, Or.inl rfl⟩
        | some fs3 =>
          rw [hsm] at hok
          dsimp only at hok
          have hpres := shutilMove_file_dirs fs1 filePath _ fe hfile1 hnd1 fs3 hsm
          have hdir3 : ∀ p, isDirPath fs3 p = true →
              isDirPath st.fs p = true ∨
                p = [(resolveCategory cfg st.store (lastName filePath)).1] := by
            intro p h
            rw [hpres p] at h
            exact hdir1 p h
          by_cases hvf :
              (existsPath fs3
                  [(resolveCategory cfg st.store (lastName filePath)).1,
                   formatFilename (lastName filePath)] &&
                !existsPath fs3 filePath) = true
          · rw [if_pos hvf] at hok
            obtain rfl := Except.ok.inj hok
            exact ⟨hdir3, Or.inr rfl⟩
          · rw [if_neg hvf] at hok
            obtain rfl := Except.ok.inj hok
            exact ⟨hdir3, Or.inl rfl⟩
  · intro fl t
    rw [formatGroups, if_pos rfl]
  · intro y fl t hy
    rw [formatGroups, if_neg hy]

theorem noyear_fallback_witness :
    plannedTarget trivialConfig ⟨[Entry.file "invoice.pdf"], invoiceDemoStore, []⟩
        ["invoice.pdf"] = ["04 Rechnung", "invoice.pdf"] ∧
    formatGroups [("no_year", ["invoice.pdf"]), ("2023", ["a.pdf"])] =
      ["invoice.pdf", "2023/a.pdf"] := by
  have h := noyear_fallback_claim trivialConfig
    ⟨[Entry.file "invoice.pdf"], invoiceDemoStore, []⟩ ["invoice.pdf"] "invoice.pdf"
    (by decide) (by rfl) (by decide)
  refine ⟨h.1.trans (by decide), ?_⟩
  rw [h.2.2.1 ["invoice.pdf"] [("2023", ["a.pdf"])]]
  rw [h.2.2.2.1 "2023" ["a.pdf"] [] (by decide)]
  rfl

end PdfSorter
namespace PdfSorter

theorem existsPath_single (g : List Entry) (a : String) :
    existsPath g [a] = (findEntry g a).isSome := by
  rw [existsPath, getPath_single]

theorem isDirPath_single (g : List Entry) (a : String) :
    isDirPath g [a] = (dirView g a).isSome := by
  rw [isDirPath_cons]
  cases dirView g a with
  | none => rfl
  | some ch => rfl

theorem existsPath_pair (g : List Entry) (a b : String) :
    existsPath g [a, b] =
      (match dirView g a with
       | some ch => (findEntry ch b).isSome
       | none => false) := by
  rw [existsPath, getPath_cons_cons]
  cases dirView g a with
  | none => rfl
  | some ch =>
    dsimp only
    rw [getPath_single]

theorem isDirPath_pair (g : List Entry) (a b : String) :
    isDirPath g [a, b] =
      (match dirView g a with
       | some ch => (dirView ch b).isSome
       | none => false) := by
  rw [isDirPath_cons]
  cases dirView g a with
  | none => rfl
  | some ch =>
    dsimp only
    rw [isDirPath_single]

theorem existsPath_triple (g : List Entry) (a b c : String) :
    existsPath g [a, b, c] =
      (match dirView g a with
       | some ch =>
         (match dirView ch b with
          | some ch2 => (findEntry ch2 c).isSome
          | none => false)
       | none => false) := by
  rw [existsPath, getPath_cons_cons]
  cases dirView g a with
  | none => rfl
  | some ch =>
    dsimp only
    rw [getPath_cons_cons]
    cases dirView ch b with
    | none => rfl
    | some ch2 =>
      dsimp only
      rw [getPath_single]

theorem findEntry_mapDirList_ne (es : List Entry) (n : String)
    (g : List Entry → List Entry) (m : String) (h : ¬ m = n) :
    findEntry (mapDirList es n g) m = findEntry es m := by
  induction es with
  | nil => rfl
  | cons e t ih =>
    rw [mapDirList.eq_def]
    dsimp only
    by_cases he : entryName e = n
    · rw [if_pos he]
      have hm : ¬ entryName e = m := fun hc => h (hc ▸ he)
      cases e with
      | file s => rfl
      | dir s ch =>
        rw [findEntry_cons, findEntry_cons]
        have hm2 : ¬ entryName (Entry.dir s (g ch)) = m := hm
        rw [if_neg hm, if_neg hm2]
    · rw [if_neg he, findEntry_cons, findEntry_cons]
      by_cases hm : entryName e = m
      · rw [if_pos hm, if_pos hm]
      · rw [if_neg hm, if_neg hm, ih]

theorem findEntry_mapDirList_self (es : List Entry) (n : String)
    (g : List Entry → List Entry) :
    findEntry (mapDirList es n g) n =
      (findEntry es n).map (fun e =>
        match e with
        | .dir m ch => .dir m (g ch)
        | .file s => .file s) := by
  induction es with
  | nil => rfl
  | cons e t ih =>
    rw [mapDirList.eq_def]
    dsimp only
    by_cases he : entryName e = n
    · rw [if_pos he]
      cases e with
      | file s =>
        rw [findEntry_cons, if_pos he]
        rfl
      | dir s ch =>
        rw [findEntry_cons, findEntry_cons, if_pos he]
        have he2 : entryName (Entry.dir s (g ch)) = n := he
        rw [if_pos he2]
        rfl
    · rw [if_neg he, findEntry_cons, findEntry_cons, if_neg he, if_neg he, ih]

theorem findEntry_removeFirstNamed_ne (es : List Entry) (n m : String) (h : ¬ m = n) :
    findEntry (removeFirstNamed es n) m = findEntry es m := by
  induction es with
  | nil => rfl
  | cons e t ih =>
    rw [removeFirstNamed]
    by_cases he : entryName e = n
    · rw [if_pos he, findEntry_cons]
      have hm : ¬ entryName e = m := fun hc => h (hc ▸ he)
      rw [if_neg hm]
    · rw [if_neg he, findEntry_cons, findEntry_cons]
      by_cases hm : entryName e = m
      · rw [if_pos hm, if_pos hm]
      · rw [if_neg hm, if_neg hm, ih]

theorem findEntry_replaceFirstNamed_ne (es : List Entry) (n : String) (e2 : Entry)
    (hn : entryName e2 = n) (m : String) (h : ¬ m = n) :
    findEntry (replaceFirstNamed es n e2) m = findEntry es m := by
  induction es with
  | nil => rfl
  | cons e t ih =>
    rw [replaceFirstNamed]
    by_cases he : entryName e = n
    · rw [if_pos he, findEntry_cons, findEntry_cons]
      have hm : ¬ entryName e = m := fun hc => h (hc ▸ he)
      have hm2 : ¬ entryName e2 = m := by
        rw [hn]
        intro hc
        exact h hc.symm
      rw [if_neg hm, if_neg hm2]
    · rw [if_neg he, findEntry_cons, findEntry_cons]
      by_cases hm : entryName e = m
      · rw [if_pos hm, if_pos hm]
      · rw [if_neg hm, if_neg hm, ih]

theorem findEntry_replaceFirstNamed_self (es : List Entry) (n : String) (e2 : Entry)
    (hn : entryName e2 = n) (h : (findEntry es n).isSome = true) :
    findEntry (replaceFirstNamed es n e2) n = some e2 := by
  induction es with
  | nil => exact absurd h (by simp [findEntry])
  | cons e t ih =>
    rw [replaceFirstNamed]
    by_cases he : entryName e = n
    · rw [if_pos he, findEntry_cons, if_pos hn]
    · rw [if_neg he, findEntry_cons, if_neg he]
      rw [findEntry_cons, if_neg he] at h
      exact ih h

theorem findEntry_append_isSome (L : List Entry) (E : Entry) (n : String)
    (h : (findEntry L n).isSome = true) :
    findEntry (L ++ [E]) n = findEntry L n := by
  rw [findEntry_append]
  cases hf : findEntry L n with
  | none => rw [hf] at h; exact absurd h (by simp)
  | some e => rfl

theorem names_replaceFirstNamed_same (es : List Entry) (n : String) (e2 : Entry)
    (hn : entryName e2 = n) :
    (replaceFirstNamed es n e2).map entryName = es.map entryName := by
  induction es with
  | nil => rfl
  | cons e t ih =>
    rw [replaceFirstNamed]
    by_cases he : entryName e = n
    · rw [if_pos he]
      simp [hn, he]
    · rw [if_neg he]
      simp [ih]

theorem entrySim_refl (e : Entry) : entrySim e e := by
  cases e with
  | file s => exact rfl
  | dir n ch => exact ⟨rfl, fun y h => h⟩

theorem entrySim_trans (a b c : Entry) (h1 : entrySim a b) (h2 : entrySim b c) :
    entrySim a c := by
  cases a with
  | file s =>
    cases b with
    | file s2 =>
      cases c with
      | file s3 => exact h2.trans h1
      | dir _ _ => exact absurd h2 (by simp [entrySim])
    | dir _ _ => exact absurd h1 (by simp [entrySim])
  | dir n ch =>
    cases b with
    | file _ => exact absurd h1 (by simp [entrySim])
    | dir n2 ch2 =>
      cases c with
      | file _ => exact absurd h2 (by simp [entrySim])
      | dir n3 ch3 => exact ⟨h2.1.trans h1.1, fun y hy => h2.2 y (h1.2 y hy)⟩

theorem growsC_refl (ch : List Entry) : growsC ch ch :=
  fun x e h => ⟨e, h, entrySim_refl e⟩

theorem growsC_trans (a b c : List Entry) (h1 : growsC a b) (h2 : growsC b c) :
    growsC a c := by
  intro x e h
  obtain ⟨e2, hb, s1⟩ := h1 x e h
  obtain ⟨e3, hc, s2⟩ := h2 x e2 hb
  exact ⟨e3, hc, entrySim_trans e e2 e3 s1 s2⟩

theorem growsR_refl (g : List Entry) : growsR g g :=
  ⟨fun n s h => h, fun t ht ch h => ⟨ch, h, growsC_refl ch⟩⟩

theorem growsR_trans (a b c : List Entry) (h1 : growsR a b) (h2 : growsR b c) :
    growsR a c := by
  refine ⟨fun n s h => h2.1 n s (h1.1 n s h), fun t ht ch h => ?_⟩
  obtain ⟨ch2, hb, g1⟩ := h1.2 t ht ch h
  obtain ⟨ch3, hc, g2⟩ := h2.2 t ht ch2 hb
  exact ⟨ch3, hc, growsC_trans ch ch2 ch3 g1 g2⟩

end PdfSorter
namespace PdfSorter

theorem dirView_eq_of_findEntry_dir (ch : List Entry) (x nm : String) (cc : List Entry)
    (h : findEntry ch x = some (.dir nm cc)) : dirView ch x = some cc := by
  rw [dirView, h]

theorem dirView_eq_of_findEntry_file (ch : List Entry) (x s : String)
    (h : findEntry ch x = some (.file s)) : dirView ch x = none := by
  rw [dirView, h]

theorem dirView_eq_of_findEntry_none (ch : List Entry) (x : String)
    (h : findEntry ch x = none) : dirView ch x = none := by
  rw [dirView, h]

theorem dirView_isSome_elim (ch : List Entry) (x : String)
    (h : (dirView ch x).isSome = true) :
    ∃ nm cc, findEntry ch x = some (.dir nm cc) ∧ dirView ch x = some cc := by
  rw [dirView] at h ⊢
  cases hf : findEntry ch x with
  | none => rw [hf] at h; exact absurd h (by simp)
  | some e =>
    cases e with
    | file s => rw [hf] at h; exact absurd h (by simp)
    | dir nm cc => exact ⟨nm, cc, rfl, rfl⟩

theorem exists_pair_elim (g : List Entry) (a b : String)
    (h : existsPath g [a, b] = true) :
    ∃ ch, dirView g a = some ch ∧ (findEntry ch b).isSome = true := by
  rw [existsPath_pair] at h
  cases hv : dirView g a with
  | none => rw [hv] at h; exact absurd h (by simp)
  | some ch =>
    rw [hv] at h
    dsimp only at h
    exact ⟨ch, rfl, h⟩

theorem isdir_pair_elim (g : List Entry) (a b : String)
    (h : isDirPath g [a, b] = true) :
    ∃ ch, dirView g a = some ch ∧ (dirView ch b).isSome = true := by
  rw [isDirPath_pair] at h
  cases hv : dirView g a with
  | none => rw [hv] at h; exact absurd h (by simp)
  | some ch =>
    rw [hv] at h
    dsimp only at h
    exact ⟨ch, rfl, h⟩

theorem exists_triple_elim (g : List Entry) (a b c : String)
    (h : existsPath g [a, b, c] = true) :
    ∃ ch cc, dirView g a = some ch ∧ dirView ch b = some cc ∧
      (findEntry cc c).isSome = true := by
  rw [existsPath_triple] at h
  cases hv : dirView g a with
  | none => rw [hv] at h; exact absurd h (by simp)
  | some ch =>
    rw [hv] at h
    dsimp only at h
    cases hv2 : dirView ch b with
    | none => rw [hv2] at h; exact absurd h (by simp)
    | some cc =>
      rw [hv2] at h
      dsimp only at h
      exact ⟨ch, cc, rfl, hv2, h⟩

theorem growsR_exists_pair (g g2 : List Entry) (t x : String)
    (hg : growsR g g2) (ht : t ∈ targetsL)
    (h : existsPath g [t, x] = true) : existsPath g2 [t, x] = true := by
  obtain ⟨ch, hv, hx⟩ := exists_pair_elim g t x h
  obtain ⟨e, hfe⟩ := Option.isSome_iff_exists.mp hx
  obtain ⟨ch2, hv2, gc⟩ := hg.2 t ht ch hv
  obtain ⟨e2, hfe2, -⟩ := gc x e hfe
  rw [existsPath_pair, hv2]
  dsimp only
  rw [hfe2]
  rfl

theorem growsR_isdir_pair (g g2 : List Entry) (t x : String)
    (hg : growsR g g2) (ht : t ∈ targetsL)
    (h : isDirPath g [t, x] = true) : isDirPath g2 [t, x] = true := by
  obtain ⟨ch, hv, hx⟩ := isdir_pair_elim g t x h
  obtain ⟨nm, cc, hfe, -⟩ := dirView_isSome_elim ch x hx
  obtain ⟨ch2, hv2, gc⟩ := hg.2 t ht ch hv
  obtain ⟨e2, hfe2, hsim⟩ := gc x (.dir nm cc) hfe
  cases e2 with
  | file s => exact absurd hsim (by simp [entrySim])
  | dir nm2 cc2 =>
    rw [isDirPath_pair, hv2]
    dsimp only
    rw [dirView_eq_of_findEntry_dir ch2 x nm2 cc2 hfe2]
    rfl

theorem growsR_file_pair (g g2 : List Entry) (t x : String)
    (hg : growsR g g2) (ht : t ∈ targetsL)
    (hex : existsPath g [t, x] = true) (hnd : isDirPath g [t, x] = false) :
    existsPath g2 [t, x] = true ∧ isDirPath g2 [t, x] = false := by
  obtain ⟨ch, hv, hx⟩ := exists_pair_elim g t x hex
  obtain ⟨e, hfe⟩ := Option.isSome_iff_exists.mp hx
  obtain ⟨ch2, hv2, gc⟩ := hg.2 t ht ch hv
  cases e with
  | dir nm cc =>
    rw [isDirPath_pair, hv] at hnd
    dsimp only at hnd
    rw [dirView_eq_of_findEntry_dir ch x nm cc hfe] at hnd
    exact absurd hnd (by simp)
  | file s =>
    obtain ⟨e2, hfe2, hsim⟩ := gc x (.file s) hfe
    cases e2 with
    | dir nm2 cc2 => exact absurd hsim (by simp [entrySim])
    | file s2 =>
      constructor
      · rw [existsPath_pair, hv2]
        dsimp only
        rw [hfe2]
        rfl
      · rw [isDirPath_pair, hv2]
        dsimp only
        rw [dirView_eq_of_findEntry_file ch2 x s2 hfe2]
        rfl

theorem growsR_exists_triple (g g2 : List Entry) (t x y : String)
    (hg : growsR g g2) (ht : t ∈ targetsL)
    (h : existsPath g [t, x, y] = true) : existsPath g2 [t, x, y] = true := by
  obtain ⟨ch, cc, hv, hv2, hy⟩ := exists_triple_elim g t x y h
  obtain ⟨nm, cc', hfe, hdv⟩ := dirView_isSome_elim ch x (by rw [hv2]; rfl)
  have hcc : cc' = cc := by rw [hv2] at hdv; exact (Option.some.inj hdv).symm
  rw [hcc] at hfe
  obtain ⟨ch2, hw, gc⟩ := hg.2 t ht ch hv
  obtain ⟨e2, hfe2, hsim⟩ := gc x (.dir nm cc) hfe
  cases e2 with
  | file s => exact absurd hsim (by simp [entrySim])
  | dir nm2 cc2 =>
    rw [existsPath_triple, hw]
    dsimp only
    rw [dirView_eq_of_findEntry_dir ch2 x nm2 cc2 hfe2]
    dsimp only
    have hy2 := hsim.2 y hy
    rw [Option.isSome_iff_exists] at hy2
    obtain ⟨e3, hf3⟩ := hy2
    rw [hf3]
    rfl

theorem growsR_allAlts (g g2 : List Entry) (t i : String)
    (hg : growsR g g2) (ht : t ∈ targetsL)
    (h : allAltsTaken g t i = true) : allAltsTaken g2 t i = true := by
  rw [allAltsTaken, List.all_eq_true] at h ⊢
  intro j hj
  exact growsR_exists_pair g g2 t (altStr i j) hg ht (h j hj)

theorem growsR_isdir_single (g g2 : List Entry) (t : String)
    (hg : growsR g g2) (ht : t ∈ targetsL)
    (h : isDirPath g [t] = true) : isDirPath g2 [t] = true := by
  rw [isDirPath_single] at h ⊢
  obtain ⟨ch, hv⟩ := Option.isSome_iff_exists.mp h
  obtain ⟨ch2, hv2, -⟩ := hg.2 t ht ch hv
  rw [hv2]
  rfl

theorem stuckItem_pres (g g2 : List Entry) (F t i : String)
    (hg : growsR g g2) (ht : t ∈ targetsL)
    (hs : stuckItem g F t i) (hF : getPath g2 [F, i] = getPath g [F, i]) :
    stuckItem g2 F t i := by
  obtain ⟨e, he, disj⟩ := hs
  refine ⟨e, by rw [hF]; exact he, ?_⟩
  rcases disj with ⟨s, hsf⟩ | ⟨hex, hall, sub⟩
  · exact Or.inl ⟨s, hg.1 t s hsf⟩
  · refine Or.inr ⟨growsR_exists_pair g g2 t i hg ht hex,
      growsR_allAlts g g2 t i hg ht hall, ?_⟩
    rcases sub with ⟨hd, hex3⟩ | ⟨hnd, ch, rfl⟩
    · exact Or.inl ⟨growsR_isdir_pair g g2 t i hg ht hd,
        growsR_exists_triple g g2 t i i hg ht hex3⟩
    · exact Or.inr ⟨(growsR_file_pair g g2 t i hg ht hex hnd).2, ch, rfl⟩

theorem isPrefixOf_head_ne (a b : String) (x y : List String) (h : ¬ a = b) :
    (a :: x).isPrefixOf (b :: y) = false := by
  rw [Bool.eq_false_iff]
  intro hc
  rw [List.isPrefixOf_iff_prefix] at hc
  exact h (List.cons_prefix_cons.mp hc).1

theorem getPath_pair_elim (g : List Entry) (F i : String) (e : Entry)
    (h : getPath g [F, i] = some e) :
    entryName e = i ∧ ∃ nm chF, findEntry g F = some (.dir nm chF) ∧
      findEntry chF i = some e := by
  rw [getPath_cons_cons] at h
  cases hv : dirView g F with
  | none => rw [hv] at h; exact absurd h (by simp)
  | some chF =>
    rw [hv] at h
    dsimp only at h
    rw [getPath_single] at h
    obtain ⟨nm, cc, hfe, hdv⟩ := dirView_isSome_elim g F (by rw [hv]; rfl)
    have hcc : cc = chF := by rw [hv] at hdv; exact (Option.some.inj hdv).symm
    rw [hcc] at hfe
    exact ⟨findEntry_name chF i e h, nm, chF, hfe, h⟩

end PdfSorter
namespace PdfSorter

theorem isdir_pair_imp_exists (g : List Entry) (a b : String)
    (h : isDirPath g [a, b] = true) : existsPath g [a, b] = true := by
  obtain ⟨ch, hv, hx⟩ := isdir_pair_elim g a b h
  obtain ⟨nm, cc, hfe, -⟩ := dirView_isSome_elim ch b hx
  rw [existsPath_pair, hv]
  dsimp only
  rw [hfe]
  rfl

theorem exists_single_file_of_not_dir (g : List Entry) (t : String)
    (hex : existsPath g [t] = true) (hnd : isDirPath g [t] = false) :
    ∃ s, findEntry g t = some (.file s) := by
  rw [existsPath_single] at hex
  obtain ⟨e, hfe⟩ := Option.isSome_iff_exists.mp hex
  cases e with
  | file s => exact ⟨s, hfe⟩
  | dir nm cc =>
    rw [isDirPath_single, dirView, hfe] at hnd
    exact absurd hnd (by simp)

theorem exists_pair_imp_isdir_single (g : List Entry) (t x : String)
    (h : existsPath g [t, x] = true) : isDirPath g [t] = true := by
  obtain ⟨ch, hv, -⟩ := exists_pair_elim g t x h
  rw [isDirPath_single, hv]
  rfl

theorem altName_eq_match (g : List Entry) (t i : String) :
    altName g t i =
      (match (List.range 99).find? (fun j => !existsPath g [t, altStr i j]) with
       | some j => altStr i j
       | none => i) := rfl

theorem altName_found (g : List Entry) (t i : String) (j : Nat)
    (h : (List.range 99).find? (fun j => !existsPath g [t, altStr i j]) = some j) :
    altName g t i = altStr i j ∧ existsPath g [t, altStr i j] = false := by
  constructor
  · rw [altName_eq_match, h]
  · have := List.find?_some h
    simpa using this

theorem altName_none (g : List Entry) (t i : String)
    (h : (List.range 99).find? (fun j => !existsPath g [t, altStr i j]) = none) :
    altName g t i = i ∧ allAltsTaken g t i = true := by
  constructor
  · rw [altName_eq_match, h]
  · rw [allAltsTaken, List.all_eq_true]
    intro j hj
    rw [List.find?_eq_none] at h
    have := h j hj
    simpa using this

end PdfSorter
namespace PdfSorter

theorem moveItem_char (g : List Entry) (F t i : String) (e : Entry)
    (hFt : ¬ F = t)
    (hsrc : getPath g [F, i] = some e)
    (hex : existsPath g [t] = true) :
    (moveItem g F t i = (g, []) ∧ stuckItem g F t i) ∨
    (∃ d ops1 tf,
      moveItem g F t i =
        (mapDirList (mapDirList g F (fun ch => removeFirstNamed ch i)) t tf, ops1) ∧
      (((tf = fun ch => ch ++ [renameEntry e d]) ∧ existsPath g [t, d] = false) ∨
       ((tf = fun ch => mapDirList ch i (fun cc => cc ++ [e])) ∧ d = i ∧
          isDirPath g [t, i] = true) ∨
       ((tf = fun ch => replaceFirstNamed ch i (Entry.file i)) ∧ d = i ∧
          (∃ s0, e = Entry.file s0) ∧ existsPath g [t, i] = true ∧
          isDirPath g [t, i] = false))) := by
  have he := (getPath_pair_elim g F i e hsrc).1
  by_cases hti : existsPath g [t, i] = true
  · have hdt : isDirPath g [t] = true := exists_pair_imp_isdir_single g t i hti
    cases halt : (List.range 99).find? (fun j => !existsPath g [t, altStr i j]) with
    | some j =>
      obtain ⟨han, hfree⟩ := altName_found g t i j halt
      have hd2 : isDirPath g [t, altStr i j] = false := by
        cases hq : isDirPath g [t, altStr i j]
        · rfl
        · rw [isdir_pair_imp_exists g t _ hq] at hfree
          exact absurd hfree (by simp)
      right
      refine ⟨altStr i j, [FsOp.moveOp [F, i] [t, altStr i j]],
        fun ch => ch ++ [renameEntry e (altStr i j)], ?_, Or.inl ⟨rfl, hfree⟩⟩
      rw [moveItem, hsrc]
      dsimp only
      rw [if_pos hti, han]
      rw [shutilMove, hsrc]
      dsimp only
      rw [if_neg (by simp [hd2])]
      rw [if_neg (by simp [hfree])]
      dsimp only [List.dropLast]
      rw [if_pos hdt]
      rw [if_neg (by simp [isPrefixOf_head_ne F t [i] [altStr i j] hFt])]
      rfl
    | none =>
      obtain ⟨han, hall⟩ := altName_none g t i halt
      by_cases hdc : isDirPath g [t, i] = true
      · by_cases hreal : existsPath g [t, i, i] = true
        · left
          refine ⟨?_, e, hsrc, Or.inr ⟨hti, hall, Or.inl ⟨hdc, hreal⟩⟩⟩
          rw [moveItem, hsrc]
          dsimp only
          rw [if_pos hti, han]
          rw [shutilMove, hsrc]
          dsimp only
          rw [if_pos hdc, he]
          simp only [List.cons_append, List.nil_append]
          rw [if_neg ?grd]
          case grd =>
            intro hq
            rcases hq with hq | hq
            · simp at hq
            · rw [isPrefixOf_head_ne F t [i] [i, i] hFt] at hq
              exact absurd hq (by simp)
          rw [if_pos hreal]
        · right
          refine ⟨i, [FsOp.moveOp [F, i] [t, i]],
            fun ch => mapDirList ch i (fun cc => cc ++ [e]), ?_,
            Or.inr (Or.inl ⟨rfl, rfl, hdc⟩)⟩
          rw [moveItem, hsrc]
          dsimp only
          rw [if_pos hti, han]
          rw [shutilMove, hsrc]
          dsimp only
          rw [if_pos hdc, he]
          simp only [List.cons_append, List.nil_append]
          rw [if_neg ?grd2]
          case grd2 =>
            intro hq
            rcases hq with hq | hq
            · simp at hq
            · rw [isPrefixOf_head_ne F t [i] [i, i] hFt] at hq
              exact absurd hq (by simp)
          rw [if_neg (by simp [hreal])]
          rfl
      · have hd2 : isDirPath g [t, i] = false := by
          cases hq : isDirPath g [t, i]
          · rfl
          · exact absurd hq hdc
        cases e with
        | file s0 =>
          have hs0 : i = s0 := he.symm
          subst hs0
          right
          refine ⟨i, [FsOp.moveOp [F, i] [t, i]],
            fun ch => replaceFirstNamed ch i (Entry.file i), ?_,
            Or.inr (Or.inr ⟨rfl, rfl, ⟨i, rfl⟩, hti, hd2⟩)⟩
          rw [moveItem, hsrc]
          dsimp only
          rw [if_pos hti, han]
          rw [shutilMove, hsrc]
          dsimp only
          rw [if_neg (by simp [hd2])]
          rw [if_pos hti]
          rw [if_neg (by intro hq; rw [List.cons.injEq] at hq; exact hFt hq.1)]
          rfl
        | dir n0 ch0 =>
          have hn0 : i = n0 := he.symm
          subst hn0
          left
          refine ⟨?_, Entry.dir i ch0, hsrc,
            Or.inr ⟨hti, hall, Or.inr ⟨hd2, ch0, rfl⟩⟩⟩
          rw [moveItem, hsrc]
          dsimp only
          rw [if_pos hti, han]
          rw [shutilMove, hsrc]
          dsimp only
          rw [if_neg (by simp [hd2])]
          rw [if_pos hti]
          rw [if_neg (by intro hq; rw [List.cons.injEq] at hq; exact hFt hq.1)]
  · have hd2 : isDirPath g [t, i] = false := by
      cases hq : isDirPath g [t, i]
      · rfl
      · exact absurd (isdir_pair_imp_exists g t i hq) hti
    by_cases hdt : isDirPath g [t] = true
    · right
      refine ⟨i, [FsOp.moveOp [F, i] [t, i]],
        fun ch => ch ++ [renameEntry e i], ?_,
        Or.inl ⟨rfl, Bool.eq_false_iff.mpr hti⟩⟩
      rw [moveItem, hsrc]
      dsimp only
      rw [if_neg hti]
      rw [shutilMove, hsrc]
      dsimp only
      rw [if_neg (by simp [hd2])]
      rw [if_neg hti]
      dsimp only [List.dropLast]
      rw [if_pos hdt]
      rw [if_neg (by simp [isPrefixOf_head_ne F t [i] [i] hFt])]
      rfl
    · left
      obtain ⟨s, hfs⟩ := exists_single_file_of_not_dir g t hex (Bool.eq_false_iff.mpr hdt)
      refine ⟨?_, e, hsrc, Or.inl ⟨s, hfs⟩⟩
      rw [moveItem, hsrc]
      dsimp only
      rw [if_neg hti]
      rw [shutilMove, hsrc]
      dsimp only
      rw [if_neg (by simp [hd2])]
      rw [if_neg hti]
      dsimp only [List.dropLast]
      rw [if_neg (by simp [Bool.eq_false_iff.mpr hdt])]

end PdfSorter
namespace PdfSorter

theorem find?_none_of_allAlts (g : List Entry) (t i : String)
    (hall : allAltsTaken g t i = true) :
    (List.range 99).find? (fun j => !existsPath g [t, altStr i j]) = none := by
  rw [List.find?_eq_none]
  intro j hj
  rw [allAltsTaken, List.all_eq_true] at hall
  simp [hall j hj]

theorem moveItem_stuck_noop (g : List Entry) (F t i : String)
    (hFt : ¬ F = t) (hs : stuckItem g F t i) :
    moveItem g F t i = (g, []) := by
  obtain ⟨e, hsrc, disj⟩ := hs
  have he := (getPath_pair_elim g F i e hsrc).1
  rcases disj with ⟨s, hfs⟩ | ⟨hti, hall, sub⟩
  · have hv : dirView g t = none := by rw [dirView, hfs]
    have hti : existsPath g [t, i] = false := by
      rw [existsPath_pair, hv]
    have hdi : isDirPath g [t, i] = false := by
      rw [isDirPath_pair, hv]
    have hdt : isDirPath g [t] = false := by
      rw [isDirPath_single, hv]
      rfl
    rw [moveItem, hsrc]
    dsimp only
    rw [if_neg (by simp [hti])]
    rw [shutilMove, hsrc]
    dsimp only
    rw [if_neg (by simp [hdi])]
    rw [if_neg (by simp [hti])]
    dsimp only [List.dropLast]
    rw [if_neg (by simp [hdt])]
  · have han : altName g t i = i :=
      (altName_none g t i (find?_none_of_allAlts g t i hall)).1
    rw [moveItem, hsrc]
    dsimp only
    rw [if_pos hti, han]
    rw [shutilMove, hsrc]
    dsimp only
    rcases sub with ⟨hdc, hreal⟩ | ⟨hnd2, ch0, rfl⟩
    · rw [if_pos hdc, he]
      simp only [List.cons_append, List.nil_append]
      rw [if_neg ?grd3]
      case grd3 =>
        intro hq
        rcases hq with hq | hq
        · simp at hq
        · rw [isPrefixOf_head_ne F t [i] [i, i] hFt] at hq
          exact absurd hq (by simp)
      rw [if_pos hreal]
    · rw [if_neg (by simp [hnd2])]
      rw [if_pos hti]
      rw [if_neg (by intro hq; rw [List.cons.injEq] at hq; exact hFt hq.1)]

end PdfSorter
namespace PdfSorter

theorem findEntry_mapDirList_file (es : List Entry) (n : String)
    (f : List Entry → List Entry) (m s : String)
    (h : findEntry es m = some (.file s)) :
    findEntry (mapDirList es n f) m = some (.file s) := by
  by_cases hm : m = n
  · subst hm
    rw [findEntry_mapDirList_self, h]
    rfl
  · rw [findEntry_mapDirList_ne es n f m hm, h]

theorem growsC_append (ch : List Entry) (E : Entry) : growsC ch (ch ++ [E]) := by
  intro x e h
  exact ⟨e, findEntry_append_isSome ch E x (by rw [h]; rfl) ▸ h, entrySim_refl e⟩

theorem growsC_mapDirList_append (ch : List Entry) (i : String) (e : Entry) :
    growsC ch (mapDirList ch i (fun cc => cc ++ [e])) := by
  intro x E h
  by_cases hx : x = i
  · subst hx
    rw [findEntry_mapDirList_self, h]
    cases E with
    | file s => exact ⟨.file s, rfl, entrySim_refl _⟩
    | dir nm cc =>
      refine ⟨.dir nm (cc ++ [e]), rfl, rfl, ?_⟩
      intro y hy
      obtain ⟨ey, hey⟩ := Option.isSome_iff_exists.mp hy
      rw [findEntry_append_isSome cc e y (by rw [hey]; rfl), hey]
      rfl
  · rw [findEntry_mapDirList_ne ch i _ x hx]
    exact ⟨E, h, entrySim_refl E⟩

theorem growsC_replace_file (ch : List Entry) (i : String)
    (h : findEntry ch i = some (Entry.file i)) :
    growsC ch (replaceFirstNamed ch i (Entry.file i)) := by
  intro x E hx
  by_cases hxi : x = i
  · subst hxi
    rw [h] at hx
    obtain rfl : Entry.file x = E := Option.some.inj hx
    exact ⟨Entry.file x,
      findEntry_replaceFirstNamed_self ch x (Entry.file x) rfl (by rw [h]; rfl),
      entrySim_refl _⟩
  · rw [findEntry_replaceFirstNamed_ne ch i (Entry.file i) rfl x hxi]
    exact ⟨E, hx, entrySim_refl E⟩

theorem mem_mapDirList (g : List Entry) (n : String) (f : List Entry → List Entry)
    (e2 : Entry) (h : e2 ∈ mapDirList g n f) :
    e2 ∈ g ∨ ∃ nm ch, findEntry g n = some (.dir nm ch) ∧ e2 = .dir nm (f ch) := by
  induction g with
  | nil => exact absurd h (by simp [mapDirList])
  | cons e tg ih =>
    rw [mapDirList.eq_def] at h
    dsimp only at h
    by_cases he : entryName e = n
    · rw [if_pos he] at h
      cases e with
      | file s =>
        exact Or.inl h
      | dir m ch =>
        rw [List.mem_cons] at h
        rcases h with h | h
        · exact Or.inr ⟨m, ch, by rw [findEntry_cons, if_pos he], h⟩
        · exact Or.inl (List.mem_cons_of_mem _ h)
    · rw [if_neg he] at h
      rw [List.mem_cons] at h
      rcases h with h | h
      · exact Or.inl (by rw [h]; exact List.mem_cons_self _ _)
      · rcases ih h with h2 | ⟨nm, ch, hf, he2⟩
        · exact Or.inl (List.mem_cons_of_mem _ h2)
        · exact Or.inr ⟨nm, ch, by rw [findEntry_cons, if_neg he]; exact hf, he2⟩

theorem wfFS2_iff (g : List Entry) :
    wfFS2 g = true ↔
      ((g.map entryName)).Nodup ∧
      ∀ e ∈ g, ∀ nm ch, e = Entry.dir nm ch → ((ch.map entryName)).Nodup := by
  rw [wfFS2, Bool.and_eq_true, List.all_eq_true, decide_eq_true_iff]
  constructor
  · refine fun ⟨h1, h2⟩ => ⟨h1, fun e he nm ch hch => ?_⟩
    have := h2 e he
    rw [hch] at this
    simpa using this
  · refine fun ⟨h1, h2⟩ => ⟨h1, fun e he => ?_⟩
    cases e with
    | file s => rfl
    | dir nm ch => simpa using h2 _ he nm ch rfl

theorem wfFS2_mapDirList (g : List Entry) (n : String) (f : List Entry → List Entry)
    (hw : wfFS2 g = true)
    (hf : ∀ nm ch, findEntry g n = some (.dir nm ch) →
      ((ch.map entryName)).Nodup → (((f ch).map entryName)).Nodup) :
    wfFS2 (mapDirList g n f) = true := by
  rw [wfFS2_iff] at hw ⊢
  constructor
  · rw [names_mapDirList]
    exact hw.1
  · intro e2 he2 nm ch hch
    rcases mem_mapDirList g n f e2 he2 with h | ⟨nm2, ch2, hfind, he⟩
    · exact hw.2 e2 h nm ch hch
    · rw [he] at hch
      injection hch with hnm hch2
      rw [← hch2]
      refine hf nm2 ch2 hfind ?_
      have hmem := List.mem_of_find?_eq_some hfind
      exact hw.2 _ hmem nm2 ch2 rfl

end PdfSorter
namespace PdfSorter

theorem entryName_renameEntry (e : Entry) (d : String) :
    entryName (renameEntry e d) = d := by
  cases e <;> rfl

theorem findEntry_none_of_not_exists_pair (g : List Entry) (t d : String)
    (ch : List Entry) (hv : dirView g t = some ch)
    (h : existsPath g [t, d] = false) : findEntry ch d = none := by
  cases hf : findEntry ch d with
  | none => rfl
  | some E =>
    rw [existsPath_pair, hv] at h
    dsimp only at h
    rw [hf] at h
    exact absurd h (by simp)

theorem moveShape_frame (g : List Entry) (F t i : String)
    (tf : List Entry → List Entry) (m : String) (h1 : ¬ m = F) (h2 : ¬ m = t) :
    findEntry (mapDirList (mapDirList g F (fun ch => removeFirstNamed ch i)) t tf) m =
      findEntry g m := by
  rw [findEntry_mapDirList_ne _ t tf m h2, findEntry_mapDirList_ne g F _ m h1]

theorem moveShape_Fview (g : List Entry) (F t i : String)
    (tf : List Entry → List Entry) (hFt : ¬ F = t) :
    dirView (mapDirList (mapDirList g F (fun ch => removeFirstNamed ch i)) t tf) F =
      (dirView g F).map (fun ch => removeFirstNamed ch i) := by
  rw [dirView_mapDirList, if_neg hFt, dirView_mapDirList, if_pos rfl]

theorem moveShape_getPath_ne (g : List Entry) (F t i : String)
    (tf : List Entry → List Entry) (hFt : ¬ F = t) (chF : List Entry)
    (hv : dirView g F = some chF) (j : String) (hne : ¬ j = i) :
    getPath (mapDirList (mapDirList g F (fun ch => removeFirstNamed ch i)) t tf) [F, j] =
      getPath g [F, j] := by
  rw [getPath_cons_cons, getPath_cons_cons, moveShape_Fview g F t i tf hFt, hv]
  dsimp only [Option.map]
  rw [getPath_single, getPath_single, findEntry_removeFirstNamed_ne chF i j hne]

theorem moveShape_growsR (g : List Entry) (F t i : String) (e : Entry) (d : String)
    (tf : List Entry → List Entry) (hFt : ¬ F = t) (hFtl : F ∉ targetsL)
    (hshape :
      ((tf = fun ch => ch ++ [renameEntry e d]) ∧ existsPath g [t, d] = false) ∨
      ((tf = fun ch => mapDirList ch i (fun cc => cc ++ [e])) ∧ d = i ∧
         isDirPath g [t, i] = true) ∨
      ((tf = fun ch => replaceFirstNamed ch i (Entry.file i)) ∧ d = i ∧
         (∃ s0, e = Entry.file s0) ∧ existsPath g [t, i] = true ∧
         isDirPath g [t, i] = false)) :
    growsR g (mapDirList (mapDirList g F (fun ch => removeFirstNamed ch i)) t tf) := by
  constructor
  · intro n s h
    exact findEntry_mapDirList_file _ t tf n s (findEntry_mapDirList_file g F _ n s h)
  · intro t2 ht2 ch hch
    have hFne : ¬ t2 = F := fun hc => hFtl (hc ▸ ht2)
    have hin : dirView (mapDirList g F (fun ch => removeFirstNamed ch i)) t2 = some ch := by
      rw [dirView_mapDirList, if_neg hFne]
      exact hch
    by_cases htt : t2 = t
    · subst htt
      refine ⟨tf ch, by rw [dirView_mapDirList, if_pos rfl, hin]; rfl, ?_⟩
      rcases hshape with ⟨htf, hfr⟩ | ⟨htf, hd, hdc⟩ | ⟨htf, hd, ⟨s0, he0⟩, hex0, hnd0⟩
      · rw [htf]
        exact growsC_append ch _
      · rw [htf]
        exact growsC_mapDirList_append ch i e
      · rw [htf]
        apply growsC_replace_file
        obtain ⟨ch2, hv2, hx2⟩ := exists_pair_elim g t2 i hex0
        have hcc : ch2 = ch := by rw [hch] at hv2; exact (Option.some.inj hv2).symm
        rw [hcc] at hx2
        obtain ⟨E, hE⟩ := Option.isSome_iff_exists.mp hx2
        cases E with
        | dir nm cc =>
          rw [isDirPath_pair, hch] at hnd0
          dsimp only at hnd0
          rw [dirView_eq_of_findEntry_dir ch i nm cc hE] at hnd0
          exact absurd hnd0 (by simp)
        | file s =>
          have : s = i := findEntry_name ch i (Entry.file s) hE
          rw [this] at hE
          exact hE
    · refine ⟨ch, ?_, growsC_refl ch⟩
      rw [dirView_mapDirList, if_neg htt]
      exact hin

theorem moveShape_wf (g : List Entry) (F t i : String) (e : Entry) (d : String)
    (tf : List Entry → List Entry) (hFt : ¬ F = t) (hw : wfFS2 g = true)
    (hshape :
      ((tf = fun ch => ch ++ [renameEntry e d]) ∧ existsPath g [t, d] = false) ∨
      ((tf = fun ch => mapDirList ch i (fun cc => cc ++ [e])) ∧ d = i ∧
         isDirPath g [t, i] = true) ∨
      ((tf = fun ch => replaceFirstNamed ch i (Entry.file i)) ∧ d = i ∧
         (∃ s0, e = Entry.file s0) ∧ existsPath g [t, i] = true ∧
         isDirPath g [t, i] = false)) :
    wfFS2 (mapDirList (mapDirList g F (fun ch => removeFirstNamed ch i)) t tf) = true := by
  apply wfFS2_mapDirList
  · apply wfFS2_mapDirList g F _ hw
    intro nm ch hfind hnd
    exact List.Nodup.sublist (names_removeFirstNamed ch i) hnd
  · intro nm ch hfind hnd
    rw [findEntry_mapDirList_ne g F _ t (fun hc => hFt hc.symm)] at hfind
    rcases hshape with ⟨htf, hfr⟩ | ⟨htf, hd, hdc⟩ | ⟨htf, hd, ⟨s0, he0⟩, hex0, hnd0⟩
    · rw [htf, List.map_append]
      rw [List.nodup_append]
      refine ⟨hnd, by simp, ?_⟩
      intro a ha hb
      simp only [List.map_cons, List.map_nil, List.mem_singleton,
        entryName_renameEntry] at hb
      subst hb
      have hfn := findEntry_none_of_not_exists_pair g t a ch
        (dirView_eq_of_findEntry_dir g t nm ch hfind) hfr
      rw [findEntry_eq_none_iff] at hfn
      exact hfn ha
    · rw [htf, names_mapDirList]
      exact hnd
    · rw [htf, names_replaceFirstNamed_same ch i (Entry.file i) rfl]
      exact hnd

end PdfSorter
namespace PdfSorter

theorem growsR_exists_single (a b : List Entry) (t : String)
    (hg : growsR a b) (ht : t ∈ targetsL)
    (h : existsPath a [t] = true) : existsPath b [t] = true := by
  rw [existsPath_single] at h ⊢
  obtain ⟨e, hfe⟩ := Option.isSome_iff_exists.mp h
  cases e with
  | file s => rw [hg.1 t s hfe]; rfl
  | dir nm cc =>
    obtain ⟨cc2, hv2, -⟩ := hg.2 t ht cc (dirView_eq_of_findEntry_dir a t nm cc hfe)
    obtain ⟨nm2, cc3, hf3, -⟩ := dirView_isSome_elim b t (by rw [hv2]; rfl)
    rw [hf3]
    rfl

theorem getPath_pair_intro (g : List Entry) (F i : String) (ch : List Entry) (e : Entry)
    (hv : dirView g F = some ch) (hfe : findEntry ch i = some e) :
    getPath g [F, i] = some e := by
  rw [getPath_cons_cons, hv]
  dsimp only
  rw [getPath_single]
  exact hfe

theorem moveShape_Ffind (g : List Entry) (F t i : String)
    (tf : List Entry → List Entry) (hFt : ¬ F = t) (nmF : String) (chF : List Entry)
    (h : findEntry g F = some (.dir nmF chF)) :
    findEntry (mapDirList (mapDirList g F (fun ch => removeFirstNamed ch i)) t tf) F =
      some (.dir nmF (removeFirstNamed chF i)) := by
  rw [findEntry_mapDirList_ne _ t tf F hFt, findEntry_mapDirList_self, h]
  rfl

theorem not_mem_names_removeFirstNamed (ch : List Entry) (i : String)
    (hnd : ((ch.map entryName)).Nodup) :
    i ∉ ((removeFirstNamed ch i).map entryName) := by
  induction ch with
  | nil => simp [removeFirstNamed]
  | cons e tc ih =>
    rw [removeFirstNamed]
    by_cases he : entryName e = i
    · rw [if_pos he]
      rw [List.map_cons, List.nodup_cons] at hnd
      rw [← he]
      exact hnd.1
    · rw [if_neg he]
      rw [List.map_cons, List.nodup_cons] at hnd
      rw [List.map_cons, List.mem_cons]
      intro hc
      rcases hc with hc | hc
      · exact he hc.symm
      · exact ih hnd.2 hc

theorem wf_children_nodup (g : List Entry) (F nm : String) (ch : List Entry)
    (hw : wfFS2 g = true) (h : findEntry g F = some (.dir nm ch)) :
    ((ch.map entryName)).Nodup :=
  (wfFS2_iff g).mp hw |>.2 _ (List.mem_of_find?_eq_some h) nm ch rfl

theorem merge_items (F t : String) (hFt : ¬ F = t) (hFtl : F ∉ targetsL)
    (htl : t ∈ targetsL) (g : List Entry) :
    ∀ (ns : List String) (acc : List Entry × List FsOp) (nmF : String)
      (chAcc : List Entry),
    ns.Nodup →
    wfFS2 acc.1 = true →
    growsR g acc.1 →
    (∀ m, ¬ m = F → ¬ m = t → findEntry acc.1 m = findEntry g m) →
    existsPath acc.1 [t] = true →
    findEntry acc.1 F = some (.dir nmF chAcc) →
    (∀ j, j ∈ ns → (findEntry chAcc j).isSome = true) →
    (∀ j, j ∈ chAcc.map entryName → j ∉ ns → stuckItem acc.1 F t j) →
    ∃ g2 ops2 ch2,
      ns.foldl
        (fun a n => ((moveItem a.1 F t n).1, a.2 ++ (moveItem a.1 F t n).2)) acc =
        (g2, ops2) ∧
      wfFS2 g2 = true ∧ growsR g g2 ∧
      (∀ m, ¬ m = F → ¬ m = t → findEntry g2 m = findEntry g m) ∧
      existsPath g2 [t] = true ∧
      findEntry g2 F = some (.dir nmF ch2) ∧
      (∀ j, j ∈ ch2.map entryName → stuckItem g2 F t j) := by
  intro ns
  induction ns with
  | nil =>
    intro acc nmF chAcc hnd hw hg hfr hex hF hpres hstuck
    exact ⟨acc.1, acc.2, chAcc, rfl, hw, hg, hfr, hex, hF,
      fun j hj => hstuck j hj (by simp)⟩
  | cons i tail ih =>
    intro acc nmF chAcc hnd hw hg hfr hex hF hpres hstuck
    rw [List.nodup_cons] at hnd
    have hvF : dirView acc.1 F = some chAcc := dirView_eq_of_findEntry_dir _ F nmF chAcc hF
    obtain ⟨e, hfe⟩ := Option.isSome_iff_exists.mp (hpres i (List.mem_cons_self i tail))
    have hsrc : getPath acc.1 [F, i] = some e := getPath_pair_intro _ F i chAcc e hvF hfe
    have hchnd : ((chAcc.map entryName)).Nodup := wf_children_nodup acc.1 F nmF chAcc hw hF
    rw [List.foldl_cons]
    rcases moveItem_char acc.1 F t i e hFt hsrc hex with ⟨hmvi, hstk⟩ | ⟨d, ops1, tf, hmvi, hshape⟩
    · rw [hmvi]
      dsimp only
      refine ih ((acc.1, acc.2 ++ [])) nmF chAcc hnd.2 hw hg hfr hex hF
        (fun j hj => hpres j (List.mem_cons_of_mem i hj)) ?_
      intro j hj hjt
      by_cases hji : j = i
      · subst hji
        exact hstk
      · exact hstuck j hj (by
          rw [List.mem_cons]
          intro hc
          rcases hc with hc | hc
          · exact hji hc
          · exact hjt hc)
    · rw [hmvi]
      dsimp only
      have hgstep := moveShape_growsR acc.1 F t i e d tf hFt hFtl hshape
      refine ih (_, acc.2 ++ ops1) nmF (removeFirstNamed chAcc i) hnd.2
        (moveShape_wf acc.1 F t i e d tf hFt hw hshape)
        (growsR_trans g acc.1 _ hg hgstep)
        (fun m h1 h2 => (moveShape_frame acc.1 F t i tf m h1 h2).trans (hfr m h1 h2))
        (growsR_exists_single acc.1 _ t hgstep htl hex)
        (moveShape_Ffind acc.1 F t i tf hFt nmF chAcc hF)
        ?_ ?_
      · intro j hj
        have hji : ¬ j = i := fun hc => hnd.1 (hc ▸ hj)
        rw [findEntry_removeFirstNamed_ne chAcc i j hji]
        exact hpres j (List.mem_cons_of_mem i hj)
      · intro j hj hjt
        have hji : ¬ j = i := by
          intro hc
          subst hc
          exact not_mem_names_removeFirstNamed chAcc j hchnd hj
        have hjmem : j ∈ chAcc.map entryName :=
          (names_removeFirstNamed chAcc i).subset hj
        have hold := hstuck j hjmem (by
          rw [List.mem_cons]
          intro hc
          rcases hc with hc | hc
          · exact hji hc
          · exact hjt hc)
        exact stuckItem_pres acc.1 _ F t j hgstep htl hold
          (moveShape_getPath_ne acc.1 F t i tf hFt chAcc hvF j hji)

end PdfSorter
namespace PdfSorter

theorem names_mem_isSome (ch : List Entry) (j : String)
    (hj : j ∈ ch.map entryName) : (findEntry ch j).isSome = true := by
  obtain ⟨e, he, hn⟩ := List.mem_map.mp hj
  rw [findEntry]
  rw [List.find?_isSome]
  exact ⟨e, he, by simp [hn]⟩

theorem findEntry_removeFirstNamed_self_nodup (g : List Entry) (F : String)
    (hnd : ((g.map entryName)).Nodup) :
    findEntry (removeFirstNamed g F) F = none := by
  induction g with
  | nil => rfl
  | cons e tg ih =>
    rw [List.map_cons, List.nodup_cons] at hnd
    rw [removeFirstNamed]
    by_cases he : entryName e = F
    · rw [if_pos he]
      rw [findEntry_eq_none_iff]
      rw [← he]
      exact hnd.1
    · rw [if_neg he, findEntry_cons, if_neg he]
      exact ih hnd.2

theorem removeFirstNamed_sublist (g : List Entry) (F : String) :
    (removeFirstNamed g F).Sublist g := by
  induction g with
  | nil => simp [removeFirstNamed]
  | cons e tg ih =>
    rw [removeFirstNamed]
    by_cases he : entryName e = F
    · rw [if_pos he]
      exact List.sublist_cons_self e tg
    · rw [if_neg he]
      exact List.Sublist.cons₂ e ih

theorem wf_removeFirstNamed (g : List Entry) (F : String)
    (hw : wfFS2 g = true) : wfFS2 (removeFirstNamed g F) = true := by
  rw [wfFS2_iff] at hw ⊢
  refine ⟨List.Nodup.sublist (names_removeFirstNamed g F) hw.1, ?_⟩
  intro e he nm ch hch
  exact hw.2 e ((removeFirstNamed_sublist g F).subset he) nm ch hch

theorem growsR_removeFirstNamed (g : List Entry) (F : String)
    (hFtl : F ∉ targetsL) (nm : String) (chF : List Entry)
    (hdir : findEntry g F = some (Entry.dir nm chF)) :
    growsR g (removeFirstNamed g F) := by
  constructor
  · intro n s h
    have hne : ¬ n = F := by
      intro hc
      subst hc
      rw [h] at hdir
      exact Entry.noConfusion (Option.some.inj hdir)
    rw [findEntry_removeFirstNamed_ne g F n hne]
    exact h
  · intro t2 ht2 ch hch
    have hne : ¬ t2 = F := fun hc => hFtl (hc ▸ ht2)
    refine ⟨ch, ?_, growsC_refl ch⟩
    rw [dirView, findEntry_removeFirstNamed_ne g F t2 hne, ← dirView]
    exact hch

theorem mergeFolder_char (g : List Entry) (F t : String)
    (hFt : ¬ F = t) (hFtl : F ∉ targetsL) (htl : t ∈ targetsL)
    (hw : wfFS2 g = true) (hex : existsPath g [t] = true)
    (nmF : String) (chF : List Entry)
    (hFdir : findEntry g F = some (Entry.dir nmF chF)) :
    ∃ g2 ops2,
      mergeFolder g F t = (g2, ops2) ∧
      wfFS2 g2 = true ∧ growsR g g2 ∧
      (∀ m, ¬ m = F → ¬ m = t → findEntry g2 m = findEntry g m) ∧
      existsPath g2 [t] = true ∧
      (findEntry g2 F = none ∨ stuckDir g2 F t) := by
  have hnm : nmF = F := findEntry_name g F (Entry.dir nmF chF) hFdir
  obtain ⟨g2, ops2, ch2, hfold, hw2, hg2, hfr2, hex2, hF2, hstuck2⟩ :=
    merge_items F t hFt hFtl htl g (chF.map entryName) (g, []) nmF chF
      (wf_children_nodup g F nmF chF hw hFdir)
      hw (growsR_refl g) (fun m h1 h2 => rfl) hex hFdir
      (fun j hj => names_mem_isSome chF j hj)
      (fun j hj hnj => absurd hj hnj)
  rw [mergeFolder, hFdir]
  dsimp only
  rw [hfold]
  dsimp only
  cases ch2 with
  | nil =>
    rw [hF2]
    dsimp only
    refine ⟨removeFirstNamed g2 F, ops2 ++ [FsOp.rmdirOp F], rfl,
      wf_removeFirstNamed g2 F hw2,
      growsR_trans g g2 _ hg2 (growsR_removeFirstNamed g2 F hFtl nmF [] hF2),
      ?_, ?_, Or.inl (findEntry_removeFirstNamed_self_nodup g2 F
        ((wfFS2_iff g2).mp hw2).1)⟩
    · intro m h1 h2
      rw [findEntry_removeFirstNamed_ne g2 F m h1]
      exact hfr2 m h1 h2
    · rw [existsPath_single,
        findEntry_removeFirstNamed_ne g2 F t (fun hc => hFt hc.symm),
        ← existsPath_single]
      exact hex2
  | cons c cs =>
    rw [hF2]
    dsimp only
    exact ⟨g2, ops2, rfl, hw2, hg2, hfr2, hex2,
      Or.inr ⟨c :: cs, hnm ▸ hF2, by simp, hstuck2⟩⟩

end PdfSorter
namespace PdfSorter

theorem getPath_pair_congr (g g2 : List Entry) (F : String)
    (h : findEntry g2 F = findEntry g F) (j : String) :
    getPath g2 [F, j] = getPath g [F, j] := by
  rw [getPath_cons_cons, getPath_cons_cons, dirView, dirView, h]

theorem stuckDir_pres (g g2 : List Entry) (F t : String)
    (hg : growsR g g2) (htl : t ∈ targetsL)
    (hfr : findEntry g2 F = findEntry g F)
    (hs : stuckDir g F t) : stuckDir g2 F t := by
  obtain ⟨ch, hF, hne, hstuck⟩ := hs
  refine ⟨ch, by rw [hfr]; exact hF, hne, ?_⟩
  intro j hj
  exact stuckItem_pres g g2 F t j hg htl (hstuck j hj) (getPath_pair_congr g g2 F hfr j)

theorem pb_variants (t : String) (htl : t ∈ targetsL) :
    ∀ (rs : List String) (a : List Entry × List FsOp),
    rs.Nodup →
    (∀ F, F ∈ rs → ¬ F = t → F ∉ targetsL) →
    (∀ F, F ∈ rs → ¬ F = t → ∃ chF, findEntry a.1 F = some (Entry.dir F chF)) →
    wfFS2 a.1 = true →
    existsPath a.1 [t] = true →
    ∃ g2 ops2,
      rs.foldl
        (fun a2 fname => if fname = t then a2
          else ((mergeFolder a2.1 fname t).1, a2.2 ++ (mergeFolder a2.1 fname t).2)) a =
        (g2, ops2) ∧
      wfFS2 g2 = true ∧ growsR a.1 g2 ∧
      (∀ m, ¬ m = t → m ∉ rs → findEntry g2 m = findEntry a.1 m) ∧
      existsPath g2 [t] = true ∧
      (∀ F, F ∈ rs → ¬ F = t → findEntry g2 F = none ∨ stuckDir g2 F t) := by
  intro rs
  induction rs with
  | nil =>
    intro a hnd hvT hvD hw hex
    exact ⟨a.1, a.2, rfl, hw, growsR_refl a.1, fun m h1 h2 => rfl, hex,
      fun F hF => absurd hF (by simp)⟩
  | cons F rest ih =>
    intro a hnd hvT hvD hw hex
    rw [List.nodup_cons] at hnd
    rw [List.foldl_cons]
    by_cases hFt : F = t
    · rw [if_pos hFt]
      obtain ⟨g2, ops2, hfold, hw2, hg2, hfr2, hex2, hstk2⟩ :=
        ih a hnd.2
          (fun F2 h2 => hvT F2 (List.mem_cons_of_mem F h2))
          (fun F2 h2 => hvD F2 (List.mem_cons_of_mem F h2)) hw hex
      refine ⟨g2, ops2, hfold, hw2, hg2, ?_, hex2, ?_⟩
      · intro m h1 h2
        exact hfr2 m h1 (fun hc => h2 (List.mem_cons_of_mem F hc))
      · intro F2 hF2 hF2t
        rcases List.mem_cons.mp hF2 with hc | hc
        · exact absurd (hc.trans hFt) hF2t
        · exact hstk2 F2 hc hF2t
    · rw [if_neg hFt]
      obtain ⟨chF, hFdir⟩ := hvD F (List.mem_cons_self F rest) hFt
      have hFtl := hvT F (List.mem_cons_self F rest) hFt
      obtain ⟨gm, opsm, hmeq, hwm, hgm, hfrm, hexm, hdisj⟩ :=
        mergeFolder_char a.1 F t hFt hFtl htl hw hex F chF hFdir
      rw [hmeq]
      dsimp only
      have hvD2 : ∀ F2, F2 ∈ rest → ¬ F2 = t →
          ∃ ch2, findEntry gm F2 = some (Entry.dir F2 ch2) := by
        intro F2 h2 h2t
        obtain ⟨ch2, hch2⟩ := hvD F2 (List.mem_cons_of_mem F h2) h2t
        refine ⟨ch2, ?_⟩
        rw [hfrm F2 (fun hc => hnd.1 (hc ▸ h2)) h2t]
        exact hch2
      obtain ⟨g2, ops2, hfold, hw2, hg2, hfr2, hex2, hstk2⟩ :=
        ih (gm, a.2 ++ opsm) hnd.2
          (fun F2 h2 => hvT F2 (List.mem_cons_of_mem F h2))
          hvD2 hwm hexm
      refine ⟨g2, ops2, hfold, hw2, growsR_trans a.1 gm g2 hgm hg2, ?_, hex2, ?_⟩
      · intro m h1 h2
        rw [hfr2 m h1 (fun hc => h2 (List.mem_cons_of_mem F hc))]
        exact hfrm m (fun hc => h2 (by rw [hc]; exact List.mem_cons_self F rest)) h1
      · intro F2 hF2 hF2t
        rcases List.mem_cons.mp hF2 with hc | hc
        · subst hc
          have hfrF : findEntry g2 F2 = findEntry gm F2 := hfr2 F2 hF2t hnd.1
          rcases hdisj with hnone | hstk
          · exact Or.inl (by rw [hfrF]; exact hnone)
          · exact Or.inr (stuckDir_pres gm g2 F2 t hg2 htl hfrF hstk)
        · exact hstk2 F2 hc hF2t

end PdfSorter
namespace PdfSorter

theorem findEntry_append_ne2 (g : List Entry) (E : Entry) (n : String)
    (h : ¬ entryName E = n) : findEntry (g ++ [E]) n = findEntry g n := by
  rw [findEntry_append, if_neg h]
  cases findEntry g n <;> rfl

theorem findEntry_append_fresh (g : List Entry) (E : Entry) (n : String)
    (hn : entryName E = n) (h : findEntry g n = none) :
    findEntry (g ++ [E]) n = some E := by
  rw [findEntry_append, h, if_pos hn]
  rfl

theorem dirView_append_isSome (g : List Entry) (E : Entry) (n : String)
    (h : (findEntry g n).isSome = true) : dirView (g ++ [E]) n = dirView g n := by
  rw [dirView, findEntry_append_isSome g E n h, dirView]

theorem growsR_append_dir (g : List Entry) (n : String)
    (hfresh : findEntry g n = none) : growsR g (g ++ [Entry.dir n []]) := by
  constructor
  · intro m s hm
    rw [findEntry_append_isSome g _ m (by rw [hm]; rfl)]
    exact hm
  · intro t2 ht2 ch hch
    refine ⟨ch, ?_, growsC_refl ch⟩
    obtain ⟨nm, cc, hfe, -⟩ := dirView_isSome_elim g t2 (by rw [hch]; rfl)
    rw [dirView_append_isSome g _ t2 (by rw [hfe]; rfl)]
    exact hch

theorem wfFS2_append_dir (g : List Entry) (n : String)
    (hfresh : findEntry g n = none) (hw : wfFS2 g = true) :
    wfFS2 (g ++ [Entry.dir n []]) = true := by
  rw [wfFS2_iff] at hw ⊢
  constructor
  · exact nodup_append_dir g n hfresh hw.1
  · intro e he nm ch hch
    rcases List.mem_append.mp he with h | h
    · exact hw.2 e h nm ch hch
    · rw [List.mem_singleton] at h
      rw [h] at hch
      injection hch with h1 h2
      rw [← h2]
      exact List.nodup_nil

theorem processBase_char (vs : List (String × String)) (acc : List Entry × List FsOp)
    (bt : String × String)
    (htl : bt.2 ∈ targetsL)
    (hnd : (variantsFor vs bt.1).Nodup)
    (hvT : ∀ F, F ∈ variantsFor vs bt.1 → ¬ F = bt.2 → F ∉ targetsL)
    (hvD : ∀ F, F ∈ variantsFor vs bt.1 → ¬ F = bt.2 →
      ∃ chF, findEntry acc.1 F = some (Entry.dir F chF))
    (hw : wfFS2 acc.1 = true) :
    ∃ g2 ops2,
      processBase vs acc bt = (g2, ops2) ∧
      wfFS2 g2 = true ∧ growsR acc.1 g2 ∧
      (∀ m, ¬ m = bt.2 → m ∉ variantsFor vs bt.1 →
        findEntry g2 m = findEntry acc.1 m) ∧
      existsPath g2 [bt.2] = true ∧
      (∀ F, F ∈ variantsFor vs bt.1 → ¬ F = bt.2 →
        findEntry g2 F = none ∨ stuckDir g2 F bt.2) := by
  rw [processBase]
  by_cases hexT : existsPath acc.1 [bt.2] = true
  · rw [if_pos hexT]
    exact pb_variants bt.2 htl (variantsFor vs bt.1) acc hnd hvT hvD hw hexT
  · rw [if_neg hexT]
    have hfresh : findEntry acc.1 bt.2 = none := by
      cases hf : findEntry acc.1 bt.2 with
      | none => rfl
      | some e =>
        rw [existsPath_single, hf] at hexT
        exact absurd rfl hexT
    have hex1 : existsPath (acc.1 ++ [Entry.dir bt.2 []]) [bt.2] = true := by
      rw [existsPath_single,
        findEntry_append_fresh acc.1 (Entry.dir bt.2 []) bt.2 rfl hfresh]
      rfl
    have hvD1 : ∀ F, F ∈ variantsFor vs bt.1 → ¬ F = bt.2 →
        ∃ chF, findEntry (acc.1 ++ [Entry.dir bt.2 []]) F = some (Entry.dir F chF) := by
      intro F hF hFt
      obtain ⟨chF, hch⟩ := hvD F hF hFt
      refine ⟨chF, ?_⟩
      rw [findEntry_append_ne2 acc.1 (Entry.dir bt.2 []) F
        (fun hc => hFt (show F = bt.2 from hc.symm))]
      exact hch
    obtain ⟨g2, ops2, hfold, hw2, hg2, hfr2, hex2, hstk2⟩ :=
      pb_variants bt.2 htl (variantsFor vs bt.1)
        (acc.1 ++ [Entry.dir bt.2 []], acc.2 ++ [FsOp.mkdirOp bt.2]) hnd hvT hvD1
        (wfFS2_append_dir acc.1 bt.2 hfresh hw) hex1
    refine ⟨g2, ops2, hfold, hw2,
      growsR_trans acc.1 _ g2 (growsR_append_dir acc.1 bt.2 hfresh) hg2, ?_, hex2, hstk2⟩
    intro m h1 h2
    rw [hfr2 m h1 h2]
    exact findEntry_append_ne2 acc.1 (Entry.dir bt.2 []) m
      (fun hc => h1 (show m = bt.2 from hc.symm))

end PdfSorter
namespace PdfSorter

theorem mem_variantsFor (vs : List (String × String)) (b F : String) :
    F ∈ variantsFor vs b ↔ (b, F) ∈ vs := by
  rw [variantsFor, List.mem_filterMap]
  constructor
  · rintro ⟨p, hp, hf⟩
    by_cases h1 : p.1 = b
    · rw [if_pos h1] at hf
      have : p = (b, F) := by
        rw [Prod.ext_iff]
        exact ⟨h1, Option.some.inj hf⟩
      rw [← this]
      exact hp
    · rw [if_neg h1] at hf
      exact absurd hf (by simp)
  · intro hp
    exact ⟨(b, F), hp, by rw [if_pos rfl]⟩

theorem mem_computeVariants (h : List Entry) (b F : String)
    (hm : (b, F) ∈ computeVariants h) :
    baseOf F = some b ∧ ∃ ch, Entry.dir F ch ∈ h := by
  rw [computeVariants, List.mem_filterMap] at hm
  obtain ⟨e, he, hf⟩ := hm
  cases e with
  | file s => exact absurd hf (by simp)
  | dir n ch =>
    dsimp only at hf
    cases hb : baseOf n with
    | none => rw [hb] at hf; exact absurd hf (by simp)
    | some b2 =>
      rw [hb] at hf
      have h2 := Option.some.inj hf
      rw [Prod.ext_iff] at h2
      obtain ⟨h3, h4⟩ := h2
      dsimp only at h3 h4
      rw [← h4, ← h3]
      exact ⟨hb, ch, he⟩

theorem computeVariants_intro (h : List Entry) (b F : String) (ch : List Entry)
    (hm : Entry.dir F ch ∈ h) (hb : baseOf F = some b) :
    (b, F) ∈ computeVariants h := by
  rw [computeVariants, List.mem_filterMap]
  exact ⟨Entry.dir F ch, hm, by dsimp only; rw [hb]⟩

theorem findEntry_of_mem_nodup (g : List Entry) (e : Entry)
    (he : e ∈ g) (hnd : ((g.map entryName)).Nodup) :
    findEntry g (entryName e) = some e := by
  induction g with
  | nil => exact absurd he (by simp)
  | cons a tg ih =>
    rw [List.map_cons, List.nodup_cons] at hnd
    rcases List.mem_cons.mp he with rfl | hm
    · rw [findEntry_cons, if_pos rfl]
    · have hne : ¬ entryName a = entryName e := by
        intro hc
        exact hnd.1 (hc ▸ List.mem_map_of_mem entryName hm)
      rw [findEntry_cons, if_neg hne]
      exact ih hm hnd.2

theorem variantsFor_sub (vs : List (String × String)) (b : String) :
    (variantsFor vs b).Sublist (vs.map Prod.snd) := by
  induction vs with
  | nil => simp [variantsFor]
  | cons p tvs ih =>
    rw [variantsFor, List.filterMap_cons]
    by_cases h1 : p.1 = b
    · rw [if_pos h1]
      dsimp only
      exact List.Sublist.cons₂ p.2 ih
    · rw [if_neg h1]
      dsimp only
      exact List.Sublist.cons p.2 ih

theorem computeVariants_names_sub (h : List Entry) :
    ((computeVariants h).map Prod.snd).Sublist (h.map entryName) := by
  induction h with
  | nil => simp [computeVariants]
  | cons e th ih =>
    rw [computeVariants, List.filterMap_cons]
    cases e with
    | file s => exact List.Sublist.cons _ ih
    | dir n ch =>
      dsimp only
      cases hb : baseOf n with
      | none => exact List.Sublist.cons _ ih
      | some b2 =>
        rw [List.map_cons]
        exact List.Sublist.cons₂ _ ih

theorem variantsFor_nodup (h : List Entry) (b : String)
    (hnd : ((h.map entryName)).Nodup) :
    (variantsFor (computeVariants h) b).Nodup :=
  List.Nodup.sublist
    ((variantsFor_sub (computeVariants h) b).trans (computeVariants_names_sub h)) hnd

end PdfSorter
namespace PdfSorter

theorem variantsFor_baseOf (h0 : List Entry) (b F : String)
    (h : F ∈ variantsFor (computeVariants h0) b) : baseOf F = some b :=
  (mem_computeVariants h0 b F ((mem_variantsFor _ b F).mp h)).1

theorem sync_bases (h0 : List Entry) (h0nd : ((h0.map entryName)).Nodup) :
    ∀ (bts : List (String × String)) (a : List Entry × List FsOp),
    (∀ bt, bt ∈ bts → bt ∈ canonicalFolders) →
    ((bts.map Prod.fst).Nodup) →
    wfFS2 a.1 = true →
    (∀ bt, bt ∈ bts → ∀ F, F ∈ variantsFor (computeVariants h0) bt.1 → ¬ F = bt.2 →
      ∃ chF, findEntry a.1 F = some (Entry.dir F chF)) →
    ∃ g2 ops2,
      bts.foldl (processBase (computeVariants h0)) a = (g2, ops2) ∧
      wfFS2 g2 = true ∧ growsR a.1 g2 ∧
      (∀ m, (∀ bt, bt ∈ bts → ¬ m = bt.2 ∧ m ∉ variantsFor (computeVariants h0) bt.1) →
        findEntry g2 m = findEntry a.1 m) ∧
      (∀ bt, bt ∈ bts → existsPath g2 [bt.2] = true ∧
        ∀ F, F ∈ variantsFor (computeVariants h0) bt.1 → ¬ F = bt.2 →
          findEntry g2 F = none ∨ stuckDir g2 F bt.2) := by
  have hcanT : ∀ bt, bt ∈ canonicalFolders → bt.2 ∈ targetsL := by decide
  have hcanB : ∀ bt, bt ∈ canonicalFolders → baseOf bt.2 = some bt.1 := by decide
  have hfun : ∀ p, p ∈ canonicalFolders → ∀ q, q ∈ canonicalFolders →
      p.1 = q.1 → p.2 = q.2 := by decide
  have htmem : ∀ t, t ∈ targetsL → ∃ bt, bt ∈ canonicalFolders ∧ bt.2 = t := by decide
  intro bts
  induction bts with
  | nil =>
    intro a hsub hndb hw hvD
    exact ⟨a.1, a.2, rfl, hw, growsR_refl a.1, fun m hm => rfl,
      fun bt hbt => absurd hbt (by simp)⟩
  | cons bt rest ih =>
    intro a hsub hndb hw hvD
    rw [List.map_cons, List.nodup_cons] at hndb
    have hbtc : bt ∈ canonicalFolders := hsub bt (List.mem_cons_self bt rest)
    have hvT : ∀ F, F ∈ variantsFor (computeVariants h0) bt.1 → ¬ F = bt.2 →
        F ∉ targetsL := by
      intro F hF hFt hFtl
      obtain ⟨bt', hbt', hbt2⟩ := htmem F hFtl
      have hb1 : baseOf F = some bt.1 := variantsFor_baseOf h0 bt.1 F hF
      have hb2 : baseOf F = some bt'.1 := by rw [← hbt2]; exact hcanB bt' hbt'
      have : bt'.1 = bt.1 := by
        rw [hb1] at hb2
        exact (Option.some.inj hb2).symm
      exact hFt (by rw [← hbt2]; exact hfun bt' hbt' bt hbtc this)
    obtain ⟨gm, opsm, hmeq, hwm, hgm, hfrm, hexm, hstkm⟩ :=
      processBase_char (computeVariants h0) a bt (hcanT bt hbtc)
        (variantsFor_nodup h0 bt.1 h0nd) hvT
        (hvD bt (List.mem_cons_self bt rest)) hw
    rw [List.foldl_cons, hmeq]
    have hsep : ∀ bt', bt' ∈ rest → ∀ F, F ∈ variantsFor (computeVariants h0) bt'.1 →
        ¬ F = bt.2 ∧ F ∉ variantsFor (computeVariants h0) bt.1 := by
      intro bt' hbt' F hF
      have hb' : baseOf F = some bt'.1 := variantsFor_baseOf h0 bt'.1 F hF
      have hne1 : ¬ bt.1 = bt'.1 := by
        intro hc
        exact hndb.1 (hc ▸ List.mem_map_of_mem Prod.fst hbt')
      constructor
      · intro hc
        have := hcanB bt hbtc
        rw [← hc] at this
        rw [hb'] at this
        exact hne1 (Option.some.inj this).symm
      · intro hc
        have := variantsFor_baseOf h0 bt.1 F hc
        rw [hb'] at this
        exact hne1 (Option.some.inj this).symm
    have hvD2 : ∀ bt', bt' ∈ rest → ∀ F, F ∈ variantsFor (computeVariants h0) bt'.1 →
        ¬ F = bt'.2 → ∃ chF, findEntry gm F = some (Entry.dir F chF) := by
      intro bt' hbt' F hF hFt
      obtain ⟨chF, hch⟩ := hvD bt' (List.mem_cons_of_mem bt hbt') F hF hFt
      obtain ⟨hn1, hn2⟩ := hsep bt' hbt' F hF
      exact ⟨chF, by rw [hfrm F hn1 hn2]; exact hch⟩
    have hsep2 : ∀ F, F ∈ variantsFor (computeVariants h0) bt.1 → ∀ bt', bt' ∈ rest →
        ¬ F = bt'.2 ∧ F ∉ variantsFor (computeVariants h0) bt'.1 := by
      intro F hF bt' hbt'
      have hb : baseOf F = some bt.1 := variantsFor_baseOf h0 bt.1 F hF
      have hne1 : ¬ bt.1 = bt'.1 := by
        intro hc
        exact hndb.1 (hc ▸ List.mem_map_of_mem Prod.fst hbt')
      constructor
      · intro hc
        have h2 := hcanB bt' (hsub bt' (List.mem_cons_of_mem bt hbt'))
        rw [← hc, hb] at h2
        exact hne1 (Option.some.inj h2)
      · intro hc
        have h2 := variantsFor_baseOf h0 bt'.1 F hc
        rw [hb] at h2
        exact hne1 (Option.some.inj h2)
    obtain ⟨g2, ops2, hfold, hw2, hg2, hfr2, hfacts2⟩ :=
      ih (gm, opsm)
        (fun bt' hbt' => hsub bt' (List.mem_cons_of_mem bt hbt'))
        hndb.2 hwm hvD2
    refine ⟨g2, ops2, hfold, hw2, growsR_trans a.1 gm g2 hgm hg2, ?_, ?_⟩
    · intro m hm
      rw [hfr2 m (fun bt' hbt' => hm bt' (List.mem_cons_of_mem bt hbt'))]
      obtain ⟨hm1, hm2⟩ := hm bt (List.mem_cons_self bt rest)
      exact hfrm m hm1 hm2
    · intro bt2 hbt2
      rcases List.mem_cons.mp hbt2 with rfl | hmem
      · constructor
        · exact growsR_exists_single gm g2 _ hg2 (hcanT _ hbtc) hexm
        · intro F hF hFt
          have hfrF : findEntry g2 F = findEntry gm F :=
            hfr2 F (fun bt' hbt' => hsep2 F hF bt' hbt')
          rcases hstkm F hF hFt with hnone | hstk
          · exact Or.inl (by rw [hfrF]; exact hnone)
          · exact Or.inr (stuckDir_pres gm g2 F _ hg2 (hcanT _ hbtc) hfrF hstk)
      · exact hfacts2 bt2 hmem

end PdfSorter
namespace PdfSorter

theorem stuck_fold_noop (g : List Entry) (F t : String) :
    ∀ (ns : List String) (l : List FsOp),
    (∀ j, j ∈ ns → moveItem g F t j = (g, [])) →
    ns.foldl (fun a n => ((moveItem a.1 F t n).1, a.2 ++ (moveItem a.1 F t n).2)) (g, l) =
      (g, l) := by
  intro ns
  induction ns with
  | nil => intro l h; rfl
  | cons j tail ih =>
    intro l h
    rw [List.foldl_cons]
    have hj := h j (List.mem_cons_self j tail)
    rw [hj]
    dsimp only
    rw [List.append_nil]
    exact ih l (fun j2 hj2 => h j2 (List.mem_cons_of_mem j hj2))

theorem mergeFolder_stuck_noop (g : List Entry) (F t : String)
    (hFt : ¬ F = t) (hs : stuckDir g F t) : mergeFolder g F t = (g, []) := by
  obtain ⟨ch, hF, hne, hstuck⟩ := hs
  cases ch with
  | nil => exact absurd rfl hne
  | cons c cs =>
    rw [mergeFolder, hF]
    dsimp only
    rw [stuck_fold_noop g F t ((c :: cs).map entryName) []
      (fun j hj => moveItem_stuck_noop g F t j hFt (hstuck j hj))]
    dsimp only
    rw [hF]

theorem variants_fold_noop (g : List Entry) (t : String) :
    ∀ (rs : List String) (l : List FsOp),
    (∀ F, F ∈ rs → ¬ F = t → mergeFolder g F t = (g, [])) →
    rs.foldl (fun a2 fname => if fname = t then a2
      else ((mergeFolder a2.1 fname t).1, a2.2 ++ (mergeFolder a2.1 fname t).2)) (g, l) =
      (g, l) := by
  intro rs
  induction rs with
  | nil => intro l h; rfl
  | cons F tail ih =>
    intro l h
    rw [List.foldl_cons]
    by_cases hFt : F = t
    · rw [if_pos hFt]
      exact ih l (fun F2 h2 => h F2 (List.mem_cons_of_mem F h2))
    · rw [if_neg hFt, h F (List.mem_cons_self F tail) hFt]
      dsimp only
      rw [List.append_nil]
      exact ih l (fun F2 h2 => h F2 (List.mem_cons_of_mem F h2))

theorem processBase_noop (vs1 : List (String × String)) (g : List Entry)
    (bt : String × String) (l : List FsOp)
    (hex : existsPath g [bt.2] = true)
    (hmerge : ∀ F, F ∈ variantsFor vs1 bt.1 → ¬ F = bt.2 →
      mergeFolder g F bt.2 = (g, [])) :
    processBase vs1 (g, l) bt = (g, l) := by
  rw [processBase]
  dsimp only
  rw [if_pos hex]
  exact variants_fold_noop g bt.2 (variantsFor vs1 bt.1) l hmerge

theorem bases_fold_noop (vs1 : List (String × String)) (g : List Entry) :
    ∀ (bts : List (String × String)) (l : List FsOp),
    (∀ bt, bt ∈ bts → ∀ l2, processBase vs1 (g, l2) bt = (g, l2)) →
    bts.foldl (processBase vs1) (g, l) = (g, l) := by
  intro bts
  induction bts with
  | nil => intro l h; rfl
  | cons bt tail ih =>
    intro l h
    rw [List.foldl_cons, h bt (List.mem_cons_self bt tail) l]
    exact ih l (fun bt2 h2 => h bt2 (List.mem_cons_of_mem bt h2))

theorem sync_noop (g : List Entry)
    (hex : ∀ bt, bt ∈ canonicalFolders → existsPath g [bt.2] = true)
    (hmerge : ∀ bt, bt ∈ canonicalFolders →
      ∀ F, F ∈ variantsFor (computeVariants g) bt.1 → ¬ F = bt.2 →
        mergeFolder g F bt.2 = (g, [])) :
    syncFolderStructure true g = (g, []) := by
  rw [syncFolderStructure]
  have h : canonicalFolders.foldl (processBase (computeVariants g)) (g, []) = (g, []) :=
    bases_fold_noop (computeVariants g) g canonicalFolders []
      (fun bt hbt l2 => processBase_noop (computeVariants g) g bt l2
        (hex bt hbt) (hmerge bt hbt))
  exact h

end PdfSorter
namespace PdfSorter

/-- C2: folder reconciliation is idempotent on well-formed trees.  Whatever
the first `_sync_folder_structure` run did, a second run performs no
filesystem operation at all (no mkdir, no move, no rmdir) and leaves the
tree exactly as the first run left it, for both the empty-knowledge
short-circuit and the scanning path. -/
theorem sync_idempotent_claim (b : Bool) (fs : List Entry)
    (hw : wfFS2 fs = true) :
    syncFolderStructure b (syncFolderStructure b fs).1 =
      ((syncFolderStructure b fs).1, []) := by
  cases b with
  | false => rfl
  | true =>
    have h0nd : ((fs.map entryName)).Nodup := ((wfFS2_iff fs).mp hw).1
    have hvD0 : ∀ bt, bt ∈ canonicalFolders →
        ∀ F, F ∈ variantsFor (computeVariants fs) bt.1 → ¬ F = bt.2 →
        ∃ chF, findEntry fs F = some (Entry.dir F chF) := by
      intro bt hbt F hF hFt
      obtain ⟨hb, ch, hmem⟩ :=
        mem_computeVariants fs bt.1 F ((mem_variantsFor _ _ F).mp hF)
      exact ⟨ch, findEntry_of_mem_nodup fs (Entry.dir F ch) hmem h0nd⟩
    obtain ⟨g2, ops2, hfold, hw2, hg2, hfr2, hfacts⟩ :=
      sync_bases fs h0nd canonicalFolders (fs, []) (fun bt h => h) (by decide) hw hvD0
    have hrun1 : syncFolderStructure true fs = (g2, ops2) := by
      rw [syncFolderStructure]
      exact hfold
    rw [hrun1]
    dsimp only
    apply sync_noop g2
    · intro bt hbt
      exact (hfacts bt hbt).1
    · intro bt hbt F hF hFt
      have h2nd : ((g2.map entryName)).Nodup := ((wfFS2_iff g2).mp hw2).1
      obtain ⟨hb, ch, hmem⟩ :=
        mem_computeVariants g2 bt.1 F ((mem_variantsFor _ _ F).mp hF)
      have hFg2 : findEntry g2 F = some (Entry.dir F ch) :=
        findEntry_of_mem_nodup g2 (Entry.dir F ch) hmem h2nd
      by_cases hmem1 : F ∈ variantsFor (computeVariants fs) bt.1
      · rcases (hfacts bt hbt).2 F hmem1 hFt with hnone | hstk
        · rw [hFg2] at hnone
          exact absurd hnone (by simp)
        · exact mergeFolder_stuck_noop g2 F bt.2 hFt hstk
      · have hcanB : ∀ bt', bt' ∈ canonicalFolders → baseOf bt'.2 = some bt'.1 := by
          decide
        have hfun : ∀ p, p ∈ canonicalFolders → ∀ q, q ∈ canonicalFolders →
            p.1 = q.1 → p.2 = q.2 := by decide
        have hfr : findEntry g2 F = findEntry fs F := by
          apply hfr2 F
          intro bt' hbt'
          constructor
          · intro hc
            have h2 := hcanB bt' hbt'
            rw [← hc, hb] at h2
            have h3 : bt.1 = bt'.1 := Option.some.inj h2
            have h4 := hfun bt hbt bt' hbt' h3
            exact hFt (by rw [hc, ← h4])
          · intro hc
            have h2 := variantsFor_baseOf fs bt'.1 F hc
            rw [hb] at h2
            have h3 : bt.1 = bt'.1 := Option.some.inj h2
            rw [← h3] at hc
            exact hmem1 hc
        rw [hfr] at hFg2
        refine absurd ?_ hmem1
        apply (mem_variantsFor (computeVariants fs) bt.1 F).mpr
        exact computeVariants_intro fs bt.1 F ch (List.mem_of_find?_eq_some hFg2) hb

end PdfSorter
namespace PdfSorter

/-- C2 witness: on a tree with two mergeable variant folders the first run
creates targets, moves items and removes the emptied variants (a nonempty
operation log), and the second run does nothing. -/
theorem sync_idempotent_witness :
    wfFS2 syncDemoTree = true ∧
    (syncFolderStructure true syncDemoTree).2 ≠ [] ∧
    syncFolderStructure true (syncFolderStructure true syncDemoTree).1 =
      ((syncFolderStructure true syncDemoTree).1, []) :=
  ⟨by decide, by decide, sync_idempotent_claim true syncDemoTree (by decide)⟩

end PdfSorter
